import Mathlib

/-!
# RecursiveHilbertValue

A shallow embedding of `recursive_hilbert_value_impl.hpp` (mlpack rectangle tree).

* Coordinates (`ElemType`) are exact rationals: a totally ordered field, so the
  embedding has no NaN and no rounding.
* `arma::Col` and `std::vector` are lists.  Armadillo's checked accessor `v(j)` raises on an
  index outside the vector; the unchecked accessor `v[j]` outside the storage is undefined
  in C++ and is a distinct failure here.
* `size_t` values are `Nat`; `largestValue` is a signed integer whose value `-1` means `none`.
  Point ids index a dataset held in memory, so no id reaches the wrap-around of the word size.
* `recursionDepth` is a constant of the class declared outside this file; it is a parameter.
-/

/-- The class `RecursiveHilbertValue`: its one data member `largestValue`, the id of the point
the node's order summary names, or `-1` for none. -/
structure RecursiveHilbertValue where
  largestValue : Int
  deriving DecidableEq, Repr

namespace RecursiveHilbertValue

/-- The ways an evaluation can fail. -/
inductive Err where
  /-- A checked access `v(j)` with `j` outside the vector. -/
  | indexOutOfBounds
  /-- An unchecked access `v[j]` with `j` outside the storage. -/
  | undefinedAccess
  /-- An element-wise operation on two vectors of different sizes. -/
  | sizeMismatch
  deriving DecidableEq, Repr

/-- Checked element read `v(j)`. -/
def elemAt {α : Type} (v : List α) (j : Nat) : Except Err α :=
  match v[j]? with
  | some x => .ok x
  | none => .error .indexOutOfBounds

/-- Unchecked element read `v[j]`. -/
def rawGet {α : Type} (v : List α) (j : Nat) : Except Err α :=
  match v[j]? with
  | some x => .ok x
  | none => .error .undefinedAccess

/-- Checked element write `v(j) = x`. -/
def elemSet {α : Type} (v : List α) (j : Nat) (x : α) : Except Err (List α) :=
  if j < v.length then .ok (v.set j x) else .error .indexOutOfBounds

/-- Unchecked element write `v[j] = x`. -/
def rawSet {α : Type} (v : List α) (j : Nat) (x : α) : Except Err (List α) :=
  if j < v.length then .ok (v.set j x) else .error .undefinedAccess

/-- The recursion state `CompareStruct<ElemType>`. -/
structure CompareStruct where
  Lo : List ℚ
  Hi : List ℚ
  permutation : List Nat
  inversion : List Bool
  invertResult : Bool
  recursionLevel : Nat
  deriving DecidableEq, Repr

/-- Modelled from the spec: the constructor `CompareStruct(dim)` is declared in the class
header, which is not part of the sources at hand.  The spec, section 4.1 step 1:
`Lo = 0`, `Hi = 1` per dimension, identity permutation, no inversions,
`invertResult = false`, `level = 0`. -/
def CompareStruct.init (dim : Nat) : CompareStruct where
  Lo := List.replicate dim 0
  Hi := List.replicate dim 1
  permutation := List.range dim
  inversion := List.replicate dim false
  invertResult := false
  recursionLevel := 0

/-- The well-formed recursion states for dimension `d`: all vectors of the state have `d` entries and every entry of the permutation is an
index below `d`. -/
structure StateOk (d : Nat) (comp : CompareStruct) : Prop where
  lo : comp.Lo.length = d
  hi : comp.Hi.length = d
  perm : comp.permutation.length = d
  inv : comp.inversion.length = d
  range : ∀ j ∈ comp.permutation, j < d

/-- The conversion of a C++ `bool` to `int`. -/
def boolToInt (b : Bool) : Int := if b then 1 else 0

/-- The C++ `!x` on an `int`, stored back into an `int`. -/
def intNot (x : Int) : Int := if x = 0 then 1 else 0

/-- The C++ `x ^ y` on `int`: the bitwise exclusive or of two's complement integers. -/
def intXor (x y : Int) : Int := Int.xor x y

/-- Lines 66-71: `center = comp.Hi * 0.5; vec = comp.Lo * 0.5; center += vec`. -/
def mkCenter (comp : CompareStruct) : Except Err (List ℚ) :=
  if comp.Hi.length = comp.Lo.length then
    .ok (List.zipWith (fun c v => c + v) (comp.Hi.map (fun h => h * (1 / 2)))
      (comp.Lo.map (fun l => l * (1 / 2))))
  else .error .sizeMismatch

/-- The half-space test of lines 77-78, 80-81 and 122-123, as written:
`(x > c && !inv) || (x <= c && !inv)`. -/
def halfSpaceBit (x c : ℚ) (inv : Bool) : Bool :=
  (decide (x > c) && !inv) || (decide (x ≤ c) && !inv)

/-- Lines 74-82: the loop deriving `bits` and `bits2`, over the indices still to visit. -/
def bitsLoop (pt1 pt2 center : List ℚ) (comp : CompareStruct) :
    List Nat → List Int × List Int → Except Err (List Int × List Int)
  | [], acc => .ok acc
  | i :: rest, (bits, bits2) => do
    let j ← rawGet comp.permutation i
    let x1 ← elemAt pt1 j
    let c ← elemAt center j
    let f ← rawGet comp.inversion j
    let x2 ← elemAt pt2 j
    bitsLoop pt1 pt2 center comp rest
      (bits.set i (boolToInt (halfSpaceBit x1 c f)), bits2.set i (boolToInt (halfSpaceBit x2 c f)))

/-- Lines 85-89 for one vector: `bits[i] ^= bits[i-1]` for `i = 1 .. n-1`, in place. -/
def grayLoop (bits : List Int) : List Nat → List Int
  | [] => bits
  | i :: rest => grayLoop (bits.set i (intXor (bits.getD i 0) (bits.getD (i - 1) 0))) rest

/-- Lines 93-97 for one vector: `bits[i] = !bits[i]` for every index. -/
def notLoop (bits : List Int) : List Nat → List Int
  | [] => bits
  | i :: rest => notLoop (bits.set i (intNot (bits.getD i 0))) rest

/-- Lines 100-106: the first index at which the vectors differ decides; `none` when the loop
runs to its end. -/
def compareLoop (bits bits2 : List Int) : List Nat → Option Int
  | [] => none
  | i :: rest =>
    if bits.getD i 0 < bits2.getD i 0 then some (-1)
    else if bits.getD i 0 > bits2.getD i 0 then some 1
    else compareLoop bits bits2 rest

/-- Lines 118-132: the loop updating `permutation` and `inversion`. -/
def axisLoop (pt1 center : List ℚ) :
    List Nat → List Nat × List Bool → Except Err (List Nat × List Bool)
  | [], acc => .ok acc
  | i :: rest, (perm, inv) => do
    let j ← rawGet perm i
    let j0 ← rawGet perm 0
    let x ← elemAt pt1 j
    let c ← elemAt center j
    let f ← rawGet inv j
    if halfSpaceBit x c f then do
      let f0 ← rawGet inv j0
      let inv1 ← rawSet inv j0 (!f0)
      axisLoop pt1 center rest (perm, inv1)
    else do
      let tmp ← rawGet perm 0
      let pi ← rawGet perm i
      let perm1 ← rawSet perm 0 pi
      let perm2 ← rawSet perm1 i tmp
      axisLoop pt1 center rest (perm2, inv)

/-- Lines 135-141: the loop shrinking `Lo`/`Hi` to the half that holds `pt1`. -/
def chooseLoop (pt1 center : List ℚ) :
    List Nat → List ℚ × List ℚ → Except Err (List ℚ × List ℚ)
  | [], acc => .ok acc
  | i :: rest, (lo, hi) => do
    let x ← elemAt pt1 i
    let c ← elemAt center i
    if x > c then do
      let c1 ← elemAt center i
      let lo1 ← elemSet lo i c1
      chooseLoop pt1 center rest (lo1, hi)
    else do
      let c1 ← elemAt center i
      let hi1 ← elemSet hi i c1
      chooseLoop pt1 center rest (lo, hi1)

/-- One activation of the three-argument `ComparePoints` up to its `return`: either the value
returned at lines 103, 105 or 109, or the state handed to the recursive call of line 143. -/
def body (recursionDepth : Nat) (pt1 pt2 : List ℚ) (comp : CompareStruct) :
    Except Err (Int ⊕ CompareStruct) :=
  match mkCenter comp with
  | .error e => .error e
  | .ok center =>
    match bitsLoop pt1 pt2 center comp (List.range pt1.length)
        (List.replicate pt1.length 0, List.replicate pt1.length 0) with
    | .error e => .error e
    | .ok (b, b2) =>
      let g := grayLoop b (List.range' 1 (pt1.length - 1))
      let g2 := grayLoop b2 (List.range' 1 (pt1.length - 1))
      let bits := if comp.invertResult then notLoop g (List.range pt1.length) else g
      let bits2 := if comp.invertResult then notLoop g2 (List.range pt1.length) else g2
      match compareLoop bits bits2 (List.range pt1.length) with
      | some r => .ok (.inl r)
      | none =>
        if comp.recursionLevel ≥ recursionDepth then .ok (.inl 0)
        else
          match rawGet bits (pt1.length - 1) with
          | .error e => .error e
          | .ok last =>
            match axisLoop pt1 center (List.range pt1.length)
                (comp.permutation, comp.inversion) with
            | .error e => .error e
            | .ok (perm, inv) =>
              match chooseLoop pt1 center (List.range pt1.length) (comp.Lo, comp.Hi) with
              | .error e => .error e
              | .ok (lo, hi) =>
                .ok (.inr
                  { Lo := lo
                    Hi := hi
                    permutation := perm
                    inversion := inv
                    invertResult := if last ≠ 0 then !comp.invertResult else comp.invertResult
                    recursionLevel := comp.recursionLevel + 1 })

/-- The three-argument `ComparePoints(pt1, pt2, comp)`, lines 61-144. -/
def ComparePoints3 (recursionDepth : Nat) (pt1 pt2 : List ℚ) (comp : CompareStruct) :
    Except Err Int :=
  match h : body recursionDepth pt1 pt2 comp with
  | .error e => .error e
  | .ok (.inl r) => .ok r
  | .ok (.inr comp') => ComparePoints3 recursionDepth pt1 pt2 comp'
termination_by recursionDepth - comp.recursionLevel
decreasing_by
  simp only [body] at h
  repeat' split at h
  all_goals first
    | (simp only [Except.ok.injEq, Sum.inr.injEq] at h; subst h; simp only; omega)
    | simp at h

/-- The two-argument `ComparePoints(pt1, pt2)`, lines 15-23. -/
def ComparePoints (recursionDepth : Nat) (pt1 pt2 : List ℚ) : Except Err Int :=
  ComparePoints3 recursionDepth pt1 pt2 (CompareStruct.init pt1.length)

/-- Modelled from the spec: the tree node type `TreeType` is declared outside the source file.
The spec, sections 3 and 6: a node tells leaf from internal, lists its point ids (leaf) or
its children (internal) in storage order, gives read access to the dataset, and carries the
order summary of the node.  Of each child only its order summary is read, so `children` holds
those; `aux` is the summary stored with the node itself. -/
structure Node where
  /-- `IsLeaf()`. -/
  isLeaf : Bool
  /-- `Points()`: the ids of the points held by a leaf. -/
  points : List Nat
  /-- `Children()[k]->AuxiliaryInfo().LargestHilbertValue()` for each child `k`. -/
  children : List RecursiveHilbertValue
  /-- `AuxiliaryInfo().LargestHilbertValue()` of the node itself. -/
  aux : RecursiveHilbertValue
  /-- `Dataset()`: one coordinate vector (matrix column) per point id. -/
  dataset : List (List ℚ)
  deriving Repr

/-- The accessor `NumPoints()`. -/
def Node.NumPoints (node : Node) : Nat := node.points.length

/-- The accessor `NumChildren()`. -/
def Node.NumChildren (node : Node) : Nat := node.children.length

/-- The column read `Dataset().col(id)`: a checked column read; a negative signed id converts to an unsigned
index beyond every matrix. -/
def col (dataset : List (List ℚ)) (id : Int) : Except Err (List ℚ) :=
  if id < 0 then .error .indexOutOfBounds else elemAt dataset id.toNat

/-- The column read `LocalDataset().col(i)`: the local dataset of a leaf holds in column `i` the coordinates
of the point `Points()[i]`. -/
def Node.localCol (node : Node) (i : Nat) : Except Err (List ℚ) :=
  match node.points[i]? with
  | some id => col node.dataset id
  | none => .error .indexOutOfBounds

/-- Lines 154-157: the scan of `InsertPoint` over a leaf, with `k` iterations left before
`i` reaches `NumPoints()`; the result is the value of `i` when the loop is left. -/
def scanLoop (recursionDepth : Nat) (node : Node) (point : Nat) : Nat → Nat → Except Err Nat
  | 0, i => .ok i
  | k + 1, i => do
    let a ← node.localCol i
    let b ← col node.dataset point
    let r ← ComparePoints recursionDepth a b
    if r > 0 then .ok i else scanLoop recursionDepth node point k (i + 1)

/-- The method `InsertPoint(node, point)`, lines 146-175: the returned index and the updated value. -/
def InsertPoint (recursionDepth : Nat) (self : RecursiveHilbertValue) (node : Node)
    (point : Nat) : Except Err (Nat × RecursiveHilbertValue) :=
  if node.isLeaf then do
    let i ← scanLoop recursionDepth node point node.NumPoints 0
    if i = node.NumPoints then .ok (i, { largestValue := point })
    else .ok (i, self)
  else if self.largestValue < 0 then .ok (0, { largestValue := point })
  else do
    let a ← col node.dataset point
    let b ← col node.dataset self.largestValue
    let r ← ComparePoints recursionDepth a b
    if r > 0 then .ok (0, { largestValue := point }) else .ok (0, self)

/-- The method `InsertNode(node)`, lines 177-186; `node` is the child being inserted. -/
def InsertNode (recursionDepth : Nat) (self : RecursiveHilbertValue) (node : Node) :
    Except Err RecursiveHilbertValue := do
  let point := node.aux.largestValue
  let a ← col node.dataset point
  let b ← col node.dataset self.largestValue
  let r ← ComparePoints recursionDepth a b
  if r > 0 then .ok { largestValue := point } else .ok self

/-- The method `DeletePoint(node, localIndex)`, lines 188-199. -/
def DeletePoint (self : RecursiveHilbertValue) (node : Node) (localIndex : Nat) :
    Except Err RecursiveHilbertValue :=
  if node.NumPoints ≤ 1 then .ok { largestValue := -1 }
  else if localIndex + 1 = node.NumPoints then do
    let p ← rawGet node.points (localIndex - 1)
    .ok { largestValue := p }
  else .ok self

/-- The method `RemoveNode(node, nodeIndex)`, lines 201-212.  Line 210 names `AuxiliaryInfo`
without the call parentheses that lines 181, 224 and 239 write; it is read as the same access
to the child's summary. -/
def RemoveNode (self : RecursiveHilbertValue) (node : Node) (nodeIndex : Nat) :
    Except Err RecursiveHilbertValue :=
  if node.NumChildren ≤ 1 then .ok { largestValue := -1 }
  else if nodeIndex + 1 = node.NumChildren then do
    let c ← rawGet node.children (nodeIndex - 1)
    .ok { largestValue := c.largestValue }
  else .ok self

/-- The method `UpdateLargestValue(node)`, lines 228-241. -/
def UpdateLargestValue (_self : RecursiveHilbertValue) (node : Node) :
    Except Err RecursiveHilbertValue :=
  if node.isLeaf then
    if node.NumPoints > 0 then do
      let p ← rawGet node.points (node.NumPoints - 1)
      .ok { largestValue := p }
    else .ok { largestValue := -1 }
  else
    if node.NumChildren > 0 then do
      let c ← rawGet node.children (node.NumChildren - 1)
      .ok { largestValue := c.largestValue }
    else .ok { largestValue := -1 }

/-- The dataset is a matrix: every column has `d` entries. -/
def isMatrix (d : Nat) (dataset : List (List ℚ)) : Prop := ∀ c ∈ dataset, c.length = d

/-- The point ids `ids` are listed in non-decreasing curve order: for every earlier id `a` and
later id `b`, the comparator returns a result on their columns and it is not GREATER. -/
def curveSorted (recursionDepth : Nat) (dataset : List (List ℚ)) (ids : List Nat) : Prop :=
  ids.Pairwise (fun (a b : Nat) => ∃ x y r, col dataset (a : Int) = .ok x ∧
    col dataset (b : Int) = .ok y ∧ ComparePoints recursionDepth x y = .ok r ∧ r ≤ 0)

/-- A leaf that holds no point; its summary is none. -/
def emptyLeaf (dataset : List (List ℚ)) : Node where
  isLeaf := true
  points := []
  children := []
  aux := { largestValue := -1 }
  dataset := dataset

/-- Modelled from the spec: the insertion of a point into a leaf is the external tree's; the
spec, section 4.1: `insertPoint` returns the index and "the external tree inserts the new
point at that index". -/
def leafInsert (recursionDepth : Nat) (node : Node) (point : Nat) : Except Err Node := do
  let r ← InsertPoint recursionDepth node.aux node point
  .ok { node with points := node.points.insertIdx r.1 point, aux := r.2 }

/-- Modelled from the spec: the removal of a point from a leaf is the external tree's;
`DeletePoint` is called on the node as it is before the entry is removed. -/
def leafDelete (node : Node) (localIndex : Nat) : Except Err Node := do
  let hv ← DeletePoint node.aux node localIndex
  .ok { node with points := node.points.eraseIdx localIndex, aux := hv }

/-- Modelled from the spec: the attachment of a child to an internal node is the external
tree's; `InsertNode` is called for the child, which then becomes the last child. -/
def appendChild (recursionDepth : Nat) (node child : Node) : Except Err Node := do
  let hv ← InsertNode recursionDepth node.aux child
  .ok { node with children := node.children ++ [child.aux], aux := hv }

/-- The operations on a leaf. -/
inductive LeafOp where
  | insert (point : Nat)
  | delete (localIndex : Nat)
  deriving DecidableEq, Repr

/-- One leaf operation. -/
def applyOp (recursionDepth : Nat) (node : Node) : LeafOp → Except Err Node
  | .insert point => leafInsert recursionDepth node point
  | .delete localIndex => leafDelete node localIndex

/-- A sequence of leaf operations, left to right. -/
def runOps (recursionDepth : Nat) : List LeafOp → Node → Except Err Node
  | [], node => .ok node
  | op :: rest, node => do
    let next ← applyOp recursionDepth node op
    runOps recursionDepth rest next

/-- The operations are well-formed for a leaf that holds `n` points of a dataset of `numData`
points: an insert names a point of the dataset, a delete names a position of the leaf. -/
def validOps (numData : Nat) : List LeafOp → Nat → Prop
  | [], _ => True
  | .insert point :: rest, n => point < numData ∧ validOps numData rest (n + 1)
  | .delete localIndex :: rest, n => localIndex < n ∧ validOps numData rest (n - 1)

instance decidableValidOps (numData : Nat) :
    ∀ (ops : List LeafOp) (n : Nat), Decidable (validOps numData ops n)
  | [], _ => isTrue trivial
  | .insert point :: rest, n =>
    have := decidableValidOps numData rest (n + 1)
    inferInstanceAs (Decidable (point < numData ∧ validOps numData rest (n + 1)))
  | .delete localIndex :: rest, n =>
    have := decidableValidOps numData rest (n - 1)
    inferInstanceAs (Decidable (localIndex < n ∧ validOps numData rest (n - 1)))

instance decidableIsMatrix (d : Nat) (dataset : List (List ℚ)) :
    Decidable (isMatrix d dataset) :=
  inferInstanceAs (Decidable (∀ c ∈ dataset, c.length = d))

/-- The corner point `(0.1, 0.1)` of the four-quadrant scenario. -/
def cornerSW : List ℚ := [1 / 10, 1 / 10]

/-- The corner point `(0.9, 0.1)` of the four-quadrant scenario. -/
def cornerSE : List ℚ := [9 / 10, 1 / 10]

/-- The corner point `(0.9, 0.9)` of the four-quadrant scenario. -/
def cornerNE : List ℚ := [9 / 10, 9 / 10]

/-- The corner point `(0.1, 0.9)` of the four-quadrant scenario. -/
def cornerNW : List ℚ := [1 / 10, 9 / 10]

/-- A dataset of three points on a line; the points `1` and `2` have the same coordinate. -/
def lineDataset : List (List ℚ) := [[0], [1], [1]]

/-- A leaf over `lineDataset` holding the points `0` and `1`. -/
def lineLeaf : Node where
  isLeaf := true
  points := [0, 1]
  children := []
  aux := { largestValue := 1 }
  dataset := lineDataset

/-- An internal node over `lineDataset` with one child, whose summary is the point `1`. -/
def lineParent : Node where
  isLeaf := false
  points := []
  children := [{ largestValue := 1 }]
  aux := { largestValue := 1 }
  dataset := lineDataset

/-- A leaf over `lineDataset` holding the point `2`, which is its summary; the point has the
coordinates of the point `1`. -/
def lineChild : Node where
  isLeaf := true
  points := [2]
  children := []
  aux := { largestValue := 2 }
  dataset := lineDataset

/-- A leaf over `lineDataset` holding the points `0`, `2`, `1` in this order. -/
def threePointLeaf : Node where
  isLeaf := true
  points := [0, 2, 1]
  children := []
  aux := { largestValue := 1 }
  dataset := lineDataset

/-- What the induction over leaf operations carries: the node is a leaf over `dataset`, its
points are ids of the dataset, and its stored summary is what `UpdateLargestValue` computes. -/
structure LeafOk (dataset : List (List ℚ)) (node : Node) : Prop where
  leaf : node.isLeaf = true
  data : node.dataset = dataset
  ids : ∀ id ∈ node.points, id < dataset.length
  summary : UpdateLargestValue node.aux node = .ok node.aux

/-- The call trace of `ComparePoints3`: the recursion state on entry to each activation of
the function body, outermost first.  It follows the same recursion as `ComparePoints3`. -/
def activations (recursionDepth : Nat) (pt1 pt2 : List ℚ) (comp : CompareStruct) :
    List CompareStruct :=
  match h : body recursionDepth pt1 pt2 comp with
  | .error _ => [comp]
  | .ok (.inl _) => [comp]
  | .ok (.inr comp') => comp :: activations recursionDepth pt1 pt2 comp'
termination_by recursionDepth - comp.recursionLevel
decreasing_by
  simp only [body] at h
  repeat' split at h
  all_goals first
    | (simp only [Except.ok.injEq, Sum.inr.injEq] at h; subst h; simp only; omega)
    | simp at h

/-- An internal node over `lineDataset` whose three children have the summaries `5`, `12`
and `9`, in child order. -/
def threeChildNode : Node where
  isLeaf := false
  points := []
  children := [{ largestValue := 5 }, { largestValue := 12 }, { largestValue := 9 }]
  aux := { largestValue := 9 }
  dataset := lineDataset

/-- The point `pt` lies in the box with the corners `lo` and `hi`: coordinate by coordinate,
`lo(i) <= pt(i) <= hi(i)`. -/
def inBox (pt lo hi : List ℚ) : Prop :=
  List.Forall₂ (fun l x => l ≤ x) lo pt ∧ List.Forall₂ (fun x h => x ≤ h) pt hi

/-- The recursion state after one descent from the fresh state in two dimensions, for a first
point in the lower half of both axes. -/
def quarterState : CompareStruct where
  Lo := [0, 0]
  Hi := [1 / 2, 1 / 2]
  permutation := [0, 1]
  inversion := [false, false]
  invertResult := false
  recursionLevel := 1

end RecursiveHilbertValue

namespace RecursiveHilbertValue

/-! ## Element access -/

theorem bind_ok_eq {α β : Type} (a : α) (f : α → Except Err β) :
    (Except.ok a >>= f) = f a := rfl

theorem bind_error_eq {α β : Type} (e : Err) (f : α → Except Err β) :
    ((Except.error e : Except Err α) >>= f) = Except.error e := rfl

theorem elemAt_of_lt {α : Type} (v : List α) (j : Nat) (h : j < v.length) :
    ∃ x, elemAt v j = .ok x ∧ x ∈ v ∧ v[j]? = some x := by
  refine ⟨v.get ⟨j, h⟩, ?_, List.get_mem _ _ _, ?_⟩ <;>
    simp [elemAt, List.getElem?_eq_getElem h]

theorem elemAt_of_le {α : Type} (v : List α) (j : Nat) (h : v.length ≤ j) :
    elemAt v j = .error .indexOutOfBounds := by
  simp [elemAt, List.getElem?_eq_none h]

theorem rawGet_of_lt {α : Type} (v : List α) (j : Nat) (h : j < v.length) :
    ∃ x, rawGet v j = .ok x ∧ x ∈ v ∧ v[j]? = some x := by
  refine ⟨v.get ⟨j, h⟩, ?_, List.get_mem _ _ _, ?_⟩ <;>
    simp [rawGet, List.getElem?_eq_getElem h]

theorem rawSet_of_lt {α : Type} (v : List α) (j : Nat) (x : α) (h : j < v.length) :
    rawSet v j x = .ok (v.set j x) := by
  simp [rawSet, h]

theorem elemSet_of_lt {α : Type} (v : List α) (j : Nat) (x : α) (h : j < v.length) :
    elemSet v j x = .ok (v.set j x) := by
  simp [elemSet, h]

/-! ## The half-space test -/

/-- On a total order the test of lines 77-78 is the negated inversion flag. -/
theorem halfSpaceBit_eq_not (x c : ℚ) (inv : Bool) : halfSpaceBit x c inv = !inv := by
  unfold halfSpaceBit
  rcases le_or_lt x c with h | h
  · cases inv <;> simp [h]
  · cases inv <;> simp [h]

/-! ## The state invariant -/

theorem StateOk_init (d : Nat) : StateOk d (CompareStruct.init d) where
  lo := by simp [CompareStruct.init]
  hi := by simp [CompareStruct.init]
  perm := by simp [CompareStruct.init]
  inv := by simp [CompareStruct.init]
  range := by simp [CompareStruct.init]

theorem mkCenter_ok {d : Nat} {comp : CompareStruct} (h : StateOk d comp) :
    ∃ center, mkCenter comp = .ok center ∧ center.length = d := by
  refine ⟨List.zipWith (fun c v => c + v) (comp.Hi.map (fun h => h * (1 / 2)))
      (comp.Lo.map (fun l => l * (1 / 2))), ?_, ?_⟩
  · unfold mkCenter
    rw [if_pos (by rw [h.lo, h.hi])]
  · simp [h.lo, h.hi]

/-! ## The bit loops -/

theorem bitsLoop_same (pt1 pt2 center : List ℚ) (comp : CompareStruct) (d : Nat)
    (hp1 : pt1.length = d) (hp2 : d ≤ pt2.length) (hc : center.length = d)
    (hperm : comp.permutation.length = d) (hinv : comp.inversion.length = d)
    (hrange : ∀ j ∈ comp.permutation, j < d) :
    ∀ (idx : List Nat), (∀ i ∈ idx, i < d) → ∀ (b : List Int),
      ∃ r, bitsLoop pt1 pt2 center comp idx (b, b) = .ok (r, r) ∧ r.length = b.length := by
  intro idx
  induction idx with
  | nil => intro _ b; exact ⟨b, rfl, rfl⟩
  | cons i rest ih =>
    intro hidx b
    have hi : i < d := hidx i (List.mem_cons_self _ _)
    obtain ⟨j, hj, hjmem, -⟩ := rawGet_of_lt comp.permutation i (by omega)
    have hjd : j < d := hrange j hjmem
    obtain ⟨x1, hx1, -, -⟩ := elemAt_of_lt pt1 j (by omega)
    obtain ⟨c, hcj, -, -⟩ := elemAt_of_lt center j (by omega)
    obtain ⟨f, hf, -, -⟩ := rawGet_of_lt comp.inversion j (by omega)
    obtain ⟨x2, hx2, -, -⟩ := elemAt_of_lt pt2 j (by omega)
    obtain ⟨r, hr, hlen⟩ := ih (fun k hk => hidx k (List.mem_cons_of_mem _ hk))
      (b.set i (boolToInt (!f)))
    refine ⟨r, ?_, by simpa using hlen⟩
    simp only [bitsLoop, hj, hx1, hcj, hf, hx2, bind_ok_eq, halfSpaceBit_eq_not]
    exact hr

theorem compareLoop_same (b : List Int) : ∀ idx : List Nat, compareLoop b b idx = none := by
  intro idx
  induction idx with
  | nil => rfl
  | cons i rest ih => simp [compareLoop, ih]

theorem grayLoop_length : ∀ (idx : List Nat) (b : List Int),
    (grayLoop b idx).length = b.length := by
  intro idx
  induction idx with
  | nil => intro b; rfl
  | cons i rest ih => intro b; simp [grayLoop, ih]

theorem notLoop_length : ∀ (idx : List Nat) (b : List Int),
    (notLoop b idx).length = b.length := by
  intro idx
  induction idx with
  | nil => intro b; rfl
  | cons i rest ih => intro b; simp [notLoop, ih]

/-! ## The loops that update the state -/

theorem axisLoop_ok (pt1 center : List ℚ) (d : Nat) (hp1 : pt1.length = d)
    (hc : center.length = d) :
    ∀ (idx : List Nat), (∀ i ∈ idx, i < d) → ∀ (perm : List Nat) (inv : List Bool),
      perm.length = d → inv.length = d → (∀ j ∈ perm, j < d) →
      ∃ perm1 inv1, axisLoop pt1 center idx (perm, inv) = .ok (perm1, inv1) ∧
        perm1.length = d ∧ inv1.length = d ∧ ∀ j ∈ perm1, j < d := by
  intro idx
  induction idx with
  | nil => intro _ perm inv h1 h2 h3; exact ⟨perm, inv, rfl, h1, h2, h3⟩
  | cons i rest ih =>
    intro hidx perm inv hperm hinv hrange
    have hi : i < d := hidx i (List.mem_cons_self _ _)
    have hrest : ∀ k ∈ rest, k < d := fun k hk => hidx k (List.mem_cons_of_mem _ hk)
    obtain ⟨j, hj, hjmem, -⟩ := rawGet_of_lt perm i (by omega)
    obtain ⟨j0, hj0, hj0mem, -⟩ := rawGet_of_lt perm 0 (by omega)
    have hjd : j < d := hrange j hjmem
    have hj0d : j0 < d := hrange j0 hj0mem
    obtain ⟨x, hx, -, -⟩ := elemAt_of_lt pt1 j (by omega)
    obtain ⟨c, hcj, -, -⟩ := elemAt_of_lt center j (by omega)
    obtain ⟨f, hf, -, -⟩ := rawGet_of_lt inv j (by omega)
    obtain ⟨f0, hf0, -, -⟩ := rawGet_of_lt inv j0 (by omega)
    simp only [axisLoop, hj, hj0, hx, hcj, hf, bind_ok_eq, halfSpaceBit_eq_not]
    cases f with
    | false =>
      simp only [Bool.not_false, if_true, hf0, bind_ok_eq,
        rawSet_of_lt inv j0 (!f0) (by omega)]
      exact ih hrest perm (inv.set j0 (!f0)) hperm (by simpa using hinv) hrange
    | true =>
      have hmem : ∀ k ∈ (perm.set 0 j).set i j0, k < d := by
        intro k hk
        rcases List.mem_or_eq_of_mem_set hk with hk1 | rfl
        · rcases List.mem_or_eq_of_mem_set hk1 with hk2 | rfl
          · exact hrange k hk2
          · exact hjd
        · exact hj0d
      simp only [Bool.not_true, Bool.false_eq_true, if_false, bind_ok_eq,
        rawSet_of_lt perm 0 j (by omega),
        rawSet_of_lt (perm.set 0 j) i j0 (by simp; omega)]
      exact ih hrest ((perm.set 0 j).set i j0) inv (by simpa using hperm) hinv hmem

theorem chooseLoop_ok (pt1 center : List ℚ) (d : Nat) (hp1 : pt1.length = d)
    (hc : center.length = d) :
    ∀ (idx : List Nat), (∀ i ∈ idx, i < d) → ∀ (lo hi : List ℚ),
      lo.length = d → hi.length = d →
      ∃ lo1 hi1, chooseLoop pt1 center idx (lo, hi) = .ok (lo1, hi1) ∧
        lo1.length = d ∧ hi1.length = d := by
  intro idx
  induction idx with
  | nil => intro _ lo hi h1 h2; exact ⟨lo, hi, rfl, h1, h2⟩
  | cons i rest ih =>
    intro hidx lo hi hlo hhi
    have hi' : i < d := hidx i (List.mem_cons_self _ _)
    have hrest : ∀ k ∈ rest, k < d := fun k hk => hidx k (List.mem_cons_of_mem _ hk)
    obtain ⟨x, hx, -, -⟩ := elemAt_of_lt pt1 i (by omega)
    obtain ⟨c, hci, -, -⟩ := elemAt_of_lt center i (by omega)
    simp only [chooseLoop, hx, hci, bind_ok_eq]
    by_cases hgt : x > c
    · simp only [hgt, if_true, bind_ok_eq, elemSet_of_lt lo i c (by omega)]
      exact ih hrest (lo.set i c) hi (by simpa using hlo) hhi
    · simp only [hgt, if_false, bind_ok_eq, elemSet_of_lt hi i c (by omega)]
      exact ih hrest lo (hi.set i c) hlo (by simpa using hhi)

theorem range_lt (d : Nat) : ∀ i ∈ List.range d, i < d := fun _ h => List.mem_range.mp h

/-! ## One activation -/

/-- On a well-formed state and points of `d >= 1` coordinates (the second may be longer), an
activation at the depth limit returns `0`. -/
theorem body_at_limit (D d : Nat) (pt1 pt2 : List ℚ) (comp : CompareStruct)
    (hp1 : pt1.length = d) (hp2 : d ≤ pt2.length) (h : StateOk d comp)
    (hlev : D ≤ comp.recursionLevel) : body D pt1 pt2 comp = .ok (.inl 0) := by
  obtain ⟨center, hcenter, hclen⟩ := mkCenter_ok h
  obtain ⟨r, hr, -⟩ := bitsLoop_same pt1 pt2 center comp d hp1 hp2 hclen h.perm h.inv h.range
    (List.range d) (range_lt d) (List.replicate d 0)
  subst hp1
  simp only [body, hcenter, hr, compareLoop_same]
  rw [if_pos hlev]

/-- Below the depth limit an activation hands a well-formed state, one level deeper, to the
recursive call. -/
theorem body_below_limit (D d : Nat) (pt1 pt2 : List ℚ) (comp : CompareStruct) (hd : 1 ≤ d)
    (hp1 : pt1.length = d) (hp2 : d ≤ pt2.length) (h : StateOk d comp)
    (hlev : comp.recursionLevel < D) :
    ∃ comp1, body D pt1 pt2 comp = .ok (.inr comp1) ∧ StateOk d comp1 ∧
      comp1.recursionLevel = comp.recursionLevel + 1 := by
  obtain ⟨center, hcenter, hclen⟩ := mkCenter_ok h
  obtain ⟨r, hr, hrlen⟩ := bitsLoop_same pt1 pt2 center comp d hp1 hp2 hclen h.perm h.inv
    h.range (List.range d) (range_lt d) (List.replicate d 0)
  obtain ⟨perm1, inv1, hax, hpl, hil, hrg⟩ := axisLoop_ok pt1 center d hp1 hclen
    (List.range d) (range_lt d) comp.permutation comp.inversion h.perm h.inv h.range
  obtain ⟨lo1, hi1, hch, hll, hhl⟩ := chooseLoop_ok pt1 center d hp1 hclen
    (List.range d) (range_lt d) comp.Lo comp.Hi h.lo h.hi
  have hbl : (if comp.invertResult then
      notLoop (grayLoop r (List.range' 1 (d - 1))) (List.range d)
      else grayLoop r (List.range' 1 (d - 1))).length = d := by
    split <;> simp [notLoop_length, grayLoop_length, hrlen]
  obtain ⟨last, hlast, -, -⟩ := rawGet_of_lt _ (d - 1) (by rw [hbl]; omega)
  subst hp1
  refine ⟨{ Lo := lo1, Hi := hi1, permutation := perm1, inversion := inv1,
             invertResult := if last ≠ 0 then !comp.invertResult else comp.invertResult,
             recursionLevel := comp.recursionLevel + 1 }, ?_, ⟨hll, hhl, hpl, hil, hrg⟩, rfl⟩
  simp only [body, hcenter, hr, compareLoop_same]
  rw [if_neg (by omega)]
  simp only [hlast, hax, hch]

/-! ## Unfolding the recursion -/

theorem ComparePoints3_of_error {D : Nat} {pt1 pt2 : List ℚ} {comp : CompareStruct} {e : Err}
    (h : body D pt1 pt2 comp = .error e) : ComparePoints3 D pt1 pt2 comp = .error e := by
  rw [ComparePoints3]
  split <;> simp_all

theorem ComparePoints3_of_inl {D : Nat} {pt1 pt2 : List ℚ} {comp : CompareStruct} {r : Int}
    (h : body D pt1 pt2 comp = .ok (.inl r)) : ComparePoints3 D pt1 pt2 comp = .ok r := by
  rw [ComparePoints3]
  split <;> simp_all

theorem ComparePoints3_of_inr {D : Nat} {pt1 pt2 : List ℚ} {comp comp1 : CompareStruct}
    (h : body D pt1 pt2 comp = .ok (.inr comp1)) :
    ComparePoints3 D pt1 pt2 comp = ComparePoints3 D pt1 pt2 comp1 := by
  rw [ComparePoints3]
  split <;> simp_all

theorem activations_of_inl {D : Nat} {pt1 pt2 : List ℚ} {comp : CompareStruct} {r : Int}
    (h : body D pt1 pt2 comp = .ok (.inl r)) : activations D pt1 pt2 comp = [comp] := by
  rw [activations]
  split <;> simp_all

theorem activations_of_inr {D : Nat} {pt1 pt2 : List ℚ} {comp comp1 : CompareStruct}
    (h : body D pt1 pt2 comp = .ok (.inr comp1)) :
    activations D pt1 pt2 comp = comp :: activations D pt1 pt2 comp1 := by
  rw [activations]
  split <;> simp_all

/-! ## The comparator on well-formed input -/

/-- From a well-formed state, on points of `d >= 1` coordinates (the second may be longer),
the recursion runs to the depth limit and returns `0`. -/
theorem ComparePoints3_eq_zero (D d : Nat) (pt1 pt2 : List ℚ) (hd : 1 ≤ d)
    (hp1 : pt1.length = d) (hp2 : d ≤ pt2.length) :
    ∀ (n : Nat) (comp : CompareStruct), StateOk d comp → D - comp.recursionLevel = n →
      ComparePoints3 D pt1 pt2 comp = .ok 0 := by
  intro n
  induction n with
  | zero =>
    intro comp hok hn
    exact ComparePoints3_of_inl (body_at_limit D d pt1 pt2 comp hp1 hp2 hok (by omega))
  | succ n ih =>
    intro comp hok hn
    obtain ⟨comp1, hb, hok1, hlev⟩ :=
      body_below_limit D d pt1 pt2 comp hd hp1 hp2 hok (by omega)
    rw [ComparePoints3_of_inr hb]
    exact ih comp1 hok1 (by omega)

/-- The two-argument comparator returns `0` whenever the first point has at least one
coordinate and the second has at least as many. -/
theorem ComparePoints_eq_zero (D : Nat) (pt1 pt2 : List ℚ) (hd : 1 ≤ pt1.length)
    (hlen : pt1.length ≤ pt2.length) : ComparePoints D pt1 pt2 = .ok 0 :=
  ComparePoints3_eq_zero D pt1.length pt1 pt2 hd rfl hlen _ _ (StateOk_init _) rfl

/-- The call trace from a well-formed state at level at most `D`: its length, the levels in
it, and the activation that returns. -/
theorem activations_spec (D d : Nat) (pt1 pt2 : List ℚ) (hd : 1 ≤ d)
    (hp1 : pt1.length = d) (hp2 : d ≤ pt2.length) :
    ∀ (n : Nat) (comp : CompareStruct), StateOk d comp → D - comp.recursionLevel = n →
      comp.recursionLevel ≤ D →
      (activations D pt1 pt2 comp).length = n + 1 ∧
      (∀ c ∈ activations D pt1 pt2 comp, c.recursionLevel ≤ D) ∧
      ∃ last, (activations D pt1 pt2 comp).getLast? = some last ∧
        body D pt1 pt2 last = .ok (.inl 0) := by
  intro n
  induction n with
  | zero =>
    intro comp hok hn hle
    have hb := body_at_limit D d pt1 pt2 comp hp1 hp2 hok (by omega)
    rw [activations_of_inl hb]
    exact ⟨rfl, by simpa using hle, comp, rfl, hb⟩
  | succ n ih =>
    intro comp hok hn hle
    obtain ⟨comp1, hb, hok1, hlev⟩ :=
      body_below_limit D d pt1 pt2 comp hd hp1 hp2 hok (by omega)
    obtain ⟨h1, h2, last, h3, h4⟩ := ih comp1 hok1 (by omega) (by omega)
    rw [activations_of_inr hb]
    refine ⟨by simp [h1], ?_, last, ?_, h4⟩
    · intro c hc
      rcases List.mem_cons.mp hc with rfl | hc
      · exact hle
      · exact h2 c hc
    · rw [List.getLast?_cons, h3]; rfl

/-- With the second point shorter than the first, the bit loop reaches an index whose axis
the second point does not have, and the checked read `pt2(j)` fails. -/
theorem bitsLoop_short (pt1 pt2 center : List ℚ) (comp : CompareStruct) (d : Nat)
    (hp1 : pt1.length = d) (hc : center.length = d)
    (hperm : comp.permutation.length = d) (hinv : comp.inversion.length = d)
    (hrange : ∀ j ∈ comp.permutation, j < d) :
    ∀ (idx : List Nat), (∀ i ∈ idx, i < d) →
      (∃ i ∈ idx, ∃ j, comp.permutation[i]? = some j ∧ pt2.length ≤ j) →
      ∀ (acc : List Int × List Int),
        bitsLoop pt1 pt2 center comp idx acc = .error .indexOutOfBounds := by
  intro idx
  induction idx with
  | nil => intro _ hex; obtain ⟨i, hi, -⟩ := hex; cases hi
  | cons i rest ih =>
    intro hidx hex acc
    obtain ⟨bits, bits2⟩ := acc
    have hi : i < d := hidx i (List.mem_cons_self _ _)
    obtain ⟨j, hj, hjmem, hjget⟩ := rawGet_of_lt comp.permutation i (by omega)
    have hjd : j < d := hrange j hjmem
    obtain ⟨x1, hx1, -, -⟩ := elemAt_of_lt pt1 j (by omega)
    obtain ⟨c, hcj, -, -⟩ := elemAt_of_lt center j (by omega)
    obtain ⟨f, hf, -, -⟩ := rawGet_of_lt comp.inversion j (by omega)
    simp only [bitsLoop, hj, hx1, hcj, hf, bind_ok_eq]
    by_cases hshort : pt2.length ≤ j
    · rw [elemAt_of_le pt2 j hshort]; rfl
    · obtain ⟨x2, hx2, -, -⟩ := elemAt_of_lt pt2 j (by omega)
      rw [hx2, bind_ok_eq]
      apply ih (fun k hk => hidx k (List.mem_cons_of_mem _ hk))
      obtain ⟨i1, hi1, j1, hj1, hle⟩ := hex
      rcases List.mem_cons.mp hi1 with rfl | hmem
      · rw [hjget] at hj1
        cases hj1
        exact absurd hle hshort
      · exact ⟨i1, hmem, j1, hj1, hle⟩

/-! ## The comparator: contract -/

/-- C1. Antisymmetry: for points `p`, `q` of equal dimension `d >= 1` and every recursion depth,
`ComparePoints(p, q)` returns GREATER (`1`) if and only if `ComparePoints(q, p)` returns
LESS (`-1`). -/
theorem ComparePoints_antisymm (D : Nat) (p q : List ℚ) (hd : 1 ≤ p.length)
    (hlen : q.length = p.length) :
    ComparePoints D p q = .ok 1 ↔ ComparePoints D q p = .ok (-1) := by
  rw [ComparePoints_eq_zero D p q hd (by omega), ComparePoints_eq_zero D q p (by omega) (by omega)]
  constructor <;> intro h <;> cases h

theorem ComparePoints_antisymm_witness :
    ComparePoints 4 [1 / 10, 1 / 10] [9 / 10, 1 / 10] = .ok 1 ↔
      ComparePoints 4 [9 / 10, 1 / 10] [1 / 10, 1 / 10] = .ok (-1) :=
  ComparePoints_antisymm 4 [1 / 10, 1 / 10] [9 / 10, 1 / 10] (by decide) (by decide)

/-- C3. At the distinct points `(1/10, 1/10)` and `(9/10, 9/10)` of the unit square the
comparator returns EQUAL (`0`) at every recursion depth: no depth tells them apart. -/
theorem ComparePoints_no_resolving_depth :
    ([1 / 10, 1 / 10] : List ℚ) ≠ [9 / 10, 9 / 10] ∧
    (∀ x ∈ ([1 / 10, 1 / 10, 9 / 10, 9 / 10] : List ℚ), 0 ≤ x ∧ x ≤ 1) ∧
    ∀ D : Nat, ComparePoints D [1 / 10, 1 / 10] [9 / 10, 9 / 10] = .ok 0 := by
  refine ⟨by norm_num, ?_, fun D => ComparePoints_eq_zero D _ _ (by decide) (by decide)⟩
  intro x hx
  simp only [List.mem_cons, List.mem_singleton, List.not_mem_nil, or_false] at hx
  rcases hx with rfl | rfl | rfl | rfl <;> norm_num

/-- C4. In two dimensions with recursion depth `4` the four corner points `(0.1, 0.1)`,
`(0.9, 0.1)`, `(0.9, 0.9)`, `(0.1, 0.9)` compare EQUAL (`0`) in every ordered pair of distinct
points: no pair is non-EQUAL. -/
theorem ComparePoints_four_quadrants :
    (ComparePoints 4 cornerSW cornerSE = .ok 0 ∧ ComparePoints 4 cornerSE cornerSW = .ok 0) ∧
    (ComparePoints 4 cornerSW cornerNE = .ok 0 ∧ ComparePoints 4 cornerNE cornerSW = .ok 0) ∧
    (ComparePoints 4 cornerSW cornerNW = .ok 0 ∧ ComparePoints 4 cornerNW cornerSW = .ok 0) ∧
    (ComparePoints 4 cornerSE cornerNE = .ok 0 ∧ ComparePoints 4 cornerNE cornerSE = .ok 0) ∧
    (ComparePoints 4 cornerSE cornerNW = .ok 0 ∧ ComparePoints 4 cornerNW cornerSE = .ok 0) ∧
    (ComparePoints 4 cornerNE cornerNW = .ok 0 ∧ ComparePoints 4 cornerNW cornerNE = .ok 0) := by
  refine ⟨⟨?_, ?_⟩, ⟨?_, ?_⟩, ⟨?_, ?_⟩, ⟨?_, ?_⟩, ⟨?_, ?_⟩, ⟨?_, ?_⟩⟩ <;>
    exact ComparePoints_eq_zero 4 _ _ (by decide) (by decide)

/-- C5, as stated, fails: with a second point longer than the first the comparator raises no
error and returns EQUAL (`0`). -/
theorem ComparePoints_longer_second_no_error :
    ([0] : List ℚ).length ≠ ([0, 0] : List ℚ).length ∧
      ComparePoints 4 [0] [0, 0] = .ok 0 :=
  ⟨by decide, ComparePoints_eq_zero 4 [0] [0, 0] (by decide) (by decide)⟩

/-- C5, amended. For points with different numbers of coordinates, the first with at least
one: when the second point is shorter, `ComparePoints` fails with the out-of-bounds error of
the checked element read and returns no order relation; when the second point is longer, no
error is raised and the result is the one for the second point cut to the length of the
first. -/
theorem ComparePoints_dimension_mismatch (D : Nat) (pt1 pt2 : List ℚ)
    (hd : 1 ≤ pt1.length) (h : pt1.length ≠ pt2.length) :
    (pt2.length < pt1.length ∧ ComparePoints D pt1 pt2 = .error .indexOutOfBounds) ∨
    (pt1.length < pt2.length ∧ (∃ r, ComparePoints D pt1 pt2 = .ok r) ∧
      ComparePoints D pt1 pt2 = ComparePoints D pt1 (pt2.take pt1.length)) := by
  rcases Nat.lt_or_gt_of_ne h with hlt | hgt
  · right
    have h1 := ComparePoints_eq_zero D pt1 pt2 hd (by omega)
    have h2 := ComparePoints_eq_zero D pt1 (pt2.take pt1.length) hd
      (by rw [List.length_take]; omega)
    exact ⟨hlt, ⟨0, h1⟩, by rw [h1, h2]⟩
  · left
    refine ⟨hgt, ?_⟩
    have hok := StateOk_init pt1.length
    obtain ⟨center, hcenter, hclen⟩ := mkCenter_ok hok
    have hb := bitsLoop_short pt1 pt2 center (CompareStruct.init pt1.length) pt1.length rfl
      hclen hok.perm hok.inv hok.range (List.range pt1.length) (range_lt _)
      ⟨pt2.length, List.mem_range.mpr hgt, pt2.length, by simp [CompareStruct.init, hgt],
        le_refl _⟩
      (List.replicate pt1.length 0, List.replicate pt1.length 0)
    apply ComparePoints3_of_error
    simp only [body, hcenter, hb]

theorem ComparePoints_dimension_mismatch_witness :
    ComparePoints 4 [0, 0] [0] = .error .indexOutOfBounds := by
  rcases ComparePoints_dimension_mismatch 4 [0, 0] [0] (by decide) (by decide) with h | h
  · exact h.2
  · exact absurd h.1 (by decide)

/-- C6. Bounded recursion: for points of equal dimension `d >= 1` and every recursion depth
`D`, `ComparePoints` from the fresh state returns a result; the function body is entered at
most `D + 1` times; the recursion level is at most `D` at every entry; and the returned
result is the one produced by the last activation. -/
theorem ComparePoints_bounded_recursion (D : Nat) (p q : List ℚ) (hd : 1 ≤ p.length)
    (hlen : q.length = p.length) :
    (∃ r, ComparePoints D p q = .ok r ∧
      ∃ last, (activations D p q (CompareStruct.init p.length)).getLast? = some last ∧
        body D p q last = .ok (.inl r)) ∧
    (activations D p q (CompareStruct.init p.length)).length ≤ D + 1 ∧
    ∀ c ∈ activations D p q (CompareStruct.init p.length), c.recursionLevel ≤ D := by
  obtain ⟨h1, h2, h3⟩ := activations_spec D p.length p q hd rfl (by omega) D
    (CompareStruct.init p.length) (StateOk_init _) rfl (Nat.zero_le _)
  exact ⟨⟨0, ComparePoints_eq_zero D p q hd (by omega), h3⟩, by omega, h2⟩

theorem ComparePoints_bounded_recursion_witness :
    (∃ r, ComparePoints 4 [1 / 10, 1 / 10] [9 / 10, 9 / 10] = .ok r ∧
      ∃ last, (activations 4 [1 / 10, 1 / 10] [9 / 10, 9 / 10]
          (CompareStruct.init 2)).getLast? = some last ∧
        body 4 [1 / 10, 1 / 10] [9 / 10, 9 / 10] last = .ok (.inl r)) ∧
    (activations 4 [1 / 10, 1 / 10] [9 / 10, 9 / 10] (CompareStruct.init 2)).length ≤ 4 + 1 ∧
    ∀ c ∈ activations 4 [1 / 10, 1 / 10] [9 / 10, 9 / 10] (CompareStruct.init 2),
      c.recursionLevel ≤ 4 :=
  ComparePoints_bounded_recursion 4 [1 / 10, 1 / 10] [9 / 10, 9 / 10] (by decide) (by decide)

/-! ## The order summary -/

theorem col_ok {d : Nat} {dataset : List (List ℚ)} (hm : isMatrix d dataset) {id : Nat}
    (hid : id < dataset.length) : ∃ x, col dataset (id : Int) = .ok x ∧ x.length = d := by
  obtain ⟨x, hx, hmem, -⟩ := elemAt_of_lt dataset id hid
  refine ⟨x, ?_, hm x hmem⟩
  unfold col
  rw [if_neg (by omega)]
  simpa using hx

theorem localCol_ok {d : Nat} {node : Node} (hm : isMatrix d node.dataset)
    (hids : ∀ id ∈ node.points, id < node.dataset.length) {i : Nat}
    (hi : i < node.points.length) : ∃ x, node.localCol i = .ok x ∧ x.length = d := by
  obtain ⟨x, hx, hlen⟩ := col_ok hm (hids _ (List.getElem_mem hi))
  refine ⟨x, ?_, hlen⟩
  unfold Node.localCol
  rw [List.getElem?_eq_getElem hi]
  exact hx

/-- On a leaf over a matrix of `d >= 1` rows the scan of `InsertPoint` runs to the end. -/
theorem scanLoop_end (D d : Nat) (node : Node) (point : Nat) (hd : 1 ≤ d)
    (hm : isMatrix d node.dataset) (hids : ∀ id ∈ node.points, id < node.dataset.length)
    (hp : point < node.dataset.length) :
    ∀ (k i : Nat), i + k = node.points.length →
      scanLoop D node point k i = .ok node.points.length := by
  intro k
  induction k with
  | zero => intro i hi; simp only [scanLoop]; rw [← hi]; rfl
  | succ k ih =>
    intro i hi
    obtain ⟨a, ha, halen⟩ := localCol_ok hm hids (show i < node.points.length by omega)
    obtain ⟨b, hb, hblen⟩ := col_ok hm hp
    have hcmp := ComparePoints_eq_zero D a b (by omega) (by omega)
    simp only [scanLoop, ha, hb, hcmp, bind_ok_eq]
    rw [if_neg (by decide)]
    exact ih (i + 1) (by omega)

theorem InsertPoint_leaf (D d : Nat) (self : RecursiveHilbertValue) (node : Node) (point : Nat)
    (hleaf : node.isLeaf = true) (hd : 1 ≤ d) (hm : isMatrix d node.dataset)
    (hids : ∀ id ∈ node.points, id < node.dataset.length)
    (hp : point < node.dataset.length) :
    InsertPoint D self node point = .ok (node.points.length, { largestValue := point }) := by
  have hscan := scanLoop_end D d node point hd hm hids hp node.points.length 0 (by omega)
  unfold InsertPoint
  rw [if_pos hleaf]
  simp only [Node.NumPoints, hscan, bind_ok_eq, if_true]

/-- C7. Sorted insert position: on a leaf whose points are in non-decreasing curve order,
`InsertPoint` returns an index `i` at most the number of points such that the list with the new
point inserted at position `i` is again in non-decreasing curve order; a new point that
compares EQUAL to existing points is included. -/
theorem InsertPoint_sorted_position (D d : Nat) (self : RecursiveHilbertValue) (node : Node)
    (point : Nat) (hleaf : node.isLeaf = true) (hd : 1 ≤ d) (hm : isMatrix d node.dataset)
    (hids : ∀ id ∈ node.points, id < node.dataset.length)
    (hp : point < node.dataset.length)
    (hsorted : curveSorted D node.dataset node.points) :
    ∃ i hv, InsertPoint D self node point = .ok (i, hv) ∧ i ≤ node.NumPoints ∧
      curveSorted D node.dataset (node.points.insertIdx i point) := by
  refine ⟨node.points.length, _, InsertPoint_leaf D d self node point hleaf hd hm hids hp,
    le_refl _, ?_⟩
  rw [List.insertIdx_length_self]
  unfold curveSorted at hsorted ⊢
  rw [List.pairwise_append]
  refine ⟨hsorted, List.pairwise_singleton _ _, ?_⟩
  intro a ha b hb
  rw [List.mem_singleton] at hb
  subst hb
  obtain ⟨x, hx, hxlen⟩ := col_ok hm (hids a ha)
  obtain ⟨y, hy, hylen⟩ := col_ok hm hp
  exact ⟨x, y, 0, hx, hy, ComparePoints_eq_zero D x y (by omega) (by omega), le_refl _⟩

theorem lineDataset_isMatrix : isMatrix 1 lineDataset := by decide

/-- Over a matrix of `d >= 1` rows every list of valid ids is in non-decreasing curve order. -/
theorem curveSorted_of_valid (D d : Nat) (dataset : List (List ℚ)) (hd : 1 ≤ d)
    (hm : isMatrix d dataset) (ids : List Nat) (hids : ∀ id ∈ ids, id < dataset.length) :
    curveSorted D dataset ids := by
  unfold curveSorted
  rw [List.pairwise_iff_forall_sublist]
  intro a b hab
  have ha : a ∈ ids := hab.subset (by simp)
  have hb : b ∈ ids := hab.subset (by simp)
  obtain ⟨x, hx, hxlen⟩ := col_ok hm (hids a ha)
  obtain ⟨y, hy, hylen⟩ := col_ok hm (hids b hb)
  exact ⟨x, y, 0, hx, hy, ComparePoints_eq_zero D x y (by omega) (by omega), le_refl _⟩

theorem InsertPoint_sorted_position_witness :
    ∃ i hv, InsertPoint 4 lineLeaf.aux lineLeaf 2 = .ok (i, hv) ∧ i ≤ lineLeaf.NumPoints ∧
      curveSorted 4 lineLeaf.dataset (lineLeaf.points.insertIdx i 2) :=
  InsertPoint_sorted_position 4 1 lineLeaf.aux lineLeaf 2 rfl (le_refl 1) lineDataset_isMatrix
    (by decide) (by decide)
    (curveSorted_of_valid 4 1 lineDataset (le_refl 1) lineDataset_isMatrix [0, 1] (by decide))

/-! ## The leaf summary under inserts and deletes -/

theorem rawGet_of_getElem? {α : Type} {v : List α} {j : Nat} {x : α} (h : v[j]? = some x) :
    rawGet v j = .ok x := by
  simp [rawGet, h]

theorem UpdateLargestValue_leaf_nil (self : RecursiveHilbertValue) (node : Node)
    (hleaf : node.isLeaf = true) (hnil : node.points = []) :
    UpdateLargestValue self node = .ok { largestValue := -1 } := by
  unfold UpdateLargestValue
  rw [if_pos hleaf, if_neg (by simp [Node.NumPoints, hnil])]

theorem UpdateLargestValue_leaf_last (self : RecursiveHilbertValue) (node : Node)
    (hleaf : node.isLeaf = true) {p : Nat}
    (hlast : node.points[node.points.length - 1]? = some p) :
    UpdateLargestValue self node = .ok { largestValue := p } := by
  have hpos : 0 < node.points.length := by
    rcases Nat.eq_zero_or_pos node.points.length with h0 | h0
    · rw [List.length_eq_zero.mp h0] at hlast; cases hlast
    · exact h0
  unfold UpdateLargestValue
  rw [if_pos hleaf, if_pos (by simpa [Node.NumPoints] using hpos)]
  simp only [Node.NumPoints, rawGet_of_getElem? hlast, bind_ok_eq]

theorem LeafOk_empty (dataset : List (List ℚ)) : LeafOk dataset (emptyLeaf dataset) where
  leaf := rfl
  data := rfl
  ids := by intro id hid; cases hid
  summary := UpdateLargestValue_leaf_nil _ _ rfl rfl

theorem leafInsert_ok (D d : Nat) (dataset : List (List ℚ)) (hd : 1 ≤ d)
    (hm : isMatrix d dataset) (node : Node) (h : LeafOk dataset node) (point : Nat)
    (hp : point < dataset.length) :
    ∃ next, leafInsert D node point = .ok next ∧ LeafOk dataset next ∧
      next.points.length = node.points.length + 1 := by
  have hins := InsertPoint_leaf D d node.aux node point h.leaf hd (by rw [h.data]; exact hm)
    (by rw [h.data]; exact h.ids) (by rw [h.data]; exact hp)
  refine ⟨{ node with points := node.points.insertIdx node.points.length point,
                      aux := { largestValue := point } }, ?_, ?_, ?_⟩
  · simp only [leafInsert, hins, bind_ok_eq]
  · refine ⟨h.leaf, h.data, ?_, ?_⟩
    · intro id hid
      simp only [List.insertIdx_length_self, List.mem_append, List.mem_singleton] at hid
      rcases hid with hid | rfl
      · exact h.ids id hid
      · exact hp
    · refine UpdateLargestValue_leaf_last _ _ ?_ ?_
      · exact h.leaf
      simp [List.insertIdx_length_self]
  · simp [List.insertIdx_length_self]

theorem leafDelete_ok (dataset : List (List ℚ)) (node : Node) (h : LeafOk dataset node)
    (localIndex : Nat) (hk : localIndex < node.points.length) :
    ∃ next, leafDelete node localIndex = .ok next ∧ LeafOk dataset next ∧
      next.points.length = node.points.length - 1 := by
  have hlen : (node.points.eraseIdx localIndex).length = node.points.length - 1 := by
    rw [List.length_eraseIdx, if_pos hk]
  have hids : ∀ id ∈ node.points.eraseIdx localIndex, id < dataset.length :=
    fun id hid => h.ids id (List.mem_of_mem_eraseIdx hid)
  by_cases h1 : node.points.length ≤ 1
  · refine ⟨{ node with points := node.points.eraseIdx localIndex,
                        aux := { largestValue := -1 } }, ?_, ⟨h.leaf, h.data, hids, ?_⟩, hlen⟩
    · simp only [leafDelete, DeletePoint, Node.NumPoints, if_pos h1, bind_ok_eq]
    · refine UpdateLargestValue_leaf_nil _ _ ?_ ?_
      · exact h.leaf
      · exact List.length_eq_zero.mp (by simp only [hlen]; omega)
  · by_cases h2 : localIndex + 1 = node.points.length
    · obtain ⟨p, hp, -, hpget⟩ := rawGet_of_lt node.points (localIndex - 1) (by omega)
      refine ⟨{ node with points := node.points.eraseIdx localIndex,
                          aux := { largestValue := p } }, ?_, ⟨h.leaf, h.data, hids, ?_⟩, hlen⟩
      · simp only [leafDelete, DeletePoint, Node.NumPoints, if_neg h1, if_pos h2, hp,
          bind_ok_eq]
      · refine UpdateLargestValue_leaf_last _ _ ?_ ?_
        · exact h.leaf
        simp only [hlen]
        rw [List.getElem?_eraseIdx, if_pos (by omega)]
        rw [show node.points.length - 1 - 1 = localIndex - 1 by omega]
        exact hpget
    · obtain ⟨p, -, -, hpget⟩ := rawGet_of_lt node.points (node.points.length - 1) (by omega)
      have hsum := h.summary
      rw [UpdateLargestValue_leaf_last _ _ h.leaf hpget] at hsum
      refine ⟨{ node with points := node.points.eraseIdx localIndex }, ?_,
        ⟨h.leaf, h.data, hids, ?_⟩, hlen⟩
      · simp only [leafDelete, DeletePoint, Node.NumPoints, if_neg h1, if_neg h2, bind_ok_eq]
      · have haux : node.aux = { largestValue := p } := by
          injection hsum with hsum
          exact hsum.symm
        simp only [haux]
        refine UpdateLargestValue_leaf_last _ _ ?_ ?_
        · exact h.leaf
        simp only [hlen]
        rw [List.getElem?_eraseIdx, if_neg (by omega)]
        rw [show node.points.length - 1 - 1 + 1 = node.points.length - 1 by omega]
        exact hpget

theorem runOps_ok (D d : Nat) (dataset : List (List ℚ)) (hd : 1 ≤ d)
    (hm : isMatrix d dataset) :
    ∀ (ops : List LeafOp) (node : Node), LeafOk dataset node →
      validOps dataset.length ops node.points.length →
      ∃ final, runOps D ops node = .ok final ∧ LeafOk dataset final := by
  intro ops
  induction ops with
  | nil => intro node h _; exact ⟨node, rfl, h⟩
  | cons op rest ih =>
    intro node h hv
    cases op with
    | insert point =>
      obtain ⟨hp, hrest⟩ := hv
      obtain ⟨next, hnext, hok, hlen⟩ := leafInsert_ok D d dataset hd hm node h point hp
      obtain ⟨final, hfinal, hfok⟩ := ih next hok (by rw [hlen]; exact hrest)
      exact ⟨final, by simp only [runOps, applyOp, hnext, bind_ok_eq, hfinal], hfok⟩
    | delete localIndex =>
      obtain ⟨hk, hrest⟩ := hv
      obtain ⟨next, hnext, hok, hlen⟩ := leafDelete_ok dataset node h localIndex hk
      obtain ⟨final, hfinal, hfok⟩ := ih next hok (by rw [hlen]; exact hrest)
      exact ⟨final, by simp only [runOps, applyOp, hnext, bind_ok_eq, hfinal], hfok⟩

theorem validOps_take (numData : Nat) :
    ∀ (ops : List LeafOp) (n k : Nat), validOps numData ops n →
      validOps numData (ops.take k) n := by
  intro ops
  induction ops with
  | nil => intro n k _; simp [validOps]
  | cons op rest ih =>
    intro n k hv
    cases k with
    | zero => simp [validOps]
    | succ k =>
      cases op with
      | insert point => exact ⟨hv.1, ih _ k hv.2⟩
      | delete localIndex => exact ⟨hv.1, ih _ k hv.2⟩

/-- C8. Leaf order summary invariant: starting from an empty leaf with summary none, for every
well-formed sequence of leaf inserts (`InsertPoint`, then the point placed at the returned
index) and deletes (`DeletePoint` on the node before the entry is removed), after each
operation the run has succeeded and the stored `largestValue` is what `UpdateLargestValue`
computes from the leaf's current point list. -/
theorem leaf_summary_invariant (D d : Nat) (dataset : List (List ℚ)) (hd : 1 ≤ d)
    (hm : isMatrix d dataset) (ops : List LeafOp) (hv : validOps dataset.length ops 0) :
    ∀ k : Nat, ∃ node, runOps D (ops.take k) (emptyLeaf dataset) = .ok node ∧
      UpdateLargestValue node.aux node = .ok node.aux := by
  intro k
  obtain ⟨node, hrun, hok⟩ := runOps_ok D d dataset hd hm (ops.take k) (emptyLeaf dataset)
    (LeafOk_empty dataset) (validOps_take _ ops 0 k hv)
  exact ⟨node, hrun, hok.summary⟩

theorem leaf_summary_invariant_witness :
    (∃ node,
      runOps 4 ([.insert 0, .insert 2, .insert 1, .delete 0, .delete 1, .delete 0].take 3)
        (emptyLeaf lineDataset) = .ok node ∧
      UpdateLargestValue node.aux node = .ok node.aux) ∧
    (∃ node,
      runOps 4 ([.insert 0, .insert 2, .insert 1, .delete 0, .delete 1, .delete 0].take 5)
        (emptyLeaf lineDataset) = .ok node ∧
      UpdateLargestValue node.aux node = .ok node.aux) :=
  have h := leaf_summary_invariant 4 1 lineDataset (le_refl 1) lineDataset_isMatrix
    [.insert 0, .insert 2, .insert 1, .delete 0, .delete 1, .delete 0] (by decide)
  ⟨h 3, h 5⟩

/-! ## The summary of an internal node under the insertion of a child -/

theorem col_ok_int {d : Nat} {dataset : List (List ℚ)} (hm : isMatrix d dataset) {id : Int}
    (h0 : 0 ≤ id) (hid : id.toNat < dataset.length) :
    ∃ x, col dataset id = .ok x ∧ x.length = d := by
  obtain ⟨x, hx, hlen⟩ := col_ok hm hid
  rw [Int.toNat_of_nonneg h0] at hx
  exact ⟨x, hx, hlen⟩

theorem UpdateLargestValue_internal_append (self : RecursiveHilbertValue) (node : Node)
    (hint : node.isLeaf = false) (cs : List RecursiveHilbertValue) (c : RecursiveHilbertValue)
    (hcs : node.children = cs ++ [c]) :
    UpdateLargestValue self node = .ok { largestValue := c.largestValue } := by
  unfold UpdateLargestValue
  rw [if_neg (by simp [hint]), if_pos (by simp [Node.NumChildren, hcs])]
  have hget : rawGet node.children (node.NumChildren - 1) = .ok c := by
    apply rawGet_of_getElem?
    simp [Node.NumChildren, hcs]
  simp only [hget, bind_ok_eq]

/-- C9, as stated, fails: the node `lineParent` stores the summary of its one child, the
point `1`; the new child `lineChild` has the summary point `2`, which has the same
coordinates and compares EQUAL (`0`), hence not LESS, to the last child's summary point;
after `InsertNode` and appending the child the stored `largestValue` is still `1`, while
`UpdateLargestValue` computes `2`. -/
theorem InsertNode_append_tie :
    lineParent.children.getLast? = some lineParent.aux ∧
    col lineDataset lineChild.aux.largestValue = .ok [1] ∧
    col lineDataset lineParent.aux.largestValue = .ok [1] ∧
    ComparePoints 4 [1] [1] = .ok 0 ∧
    ∃ next, appendChild 4 lineParent lineChild = .ok next ∧
      next.aux = { largestValue := 1 } ∧
      UpdateLargestValue next.aux next = .ok { largestValue := 2 } := by
  have hcmp : ComparePoints 4 [1] [1] = .ok 0 :=
    ComparePoints_eq_zero 4 [1] [1] (by decide) (by decide)
  have hc1 : col lineDataset lineChild.aux.largestValue = .ok [1] := rfl
  have hc0 : col lineDataset lineParent.aux.largestValue = .ok [1] := rfl
  refine ⟨rfl, hc1, hc0, hcmp,
    { lineParent with children := lineParent.children ++ [lineChild.aux] }, ?_, rfl, rfl⟩
  have hc1' : col lineChild.dataset lineChild.aux.largestValue = .ok [1] := hc1
  have hc0' : col lineChild.dataset lineParent.aux.largestValue = .ok [1] := hc0
  simp only [appendChild, InsertNode, hc1', hc0', hcmp, bind_ok_eq]
  rfl

/-- C9, amended. For an internal node with at least one child whose stored `largestValue` is
its last child's summary, and a new child whose summary is a point of the dataset: after
`InsertNode` for the child and appending it as the last child, the stored `largestValue` is
the child's summary when the child's summary point compares GREATER than the last child's
summary point and the previous summary otherwise; so it equals what `UpdateLargestValue`
computes exactly when the comparison is GREATER or the two summaries are the same id. -/
theorem InsertNode_append_summary (D d : Nat) (node child : Node)
    (last : RecursiveHilbertValue) (hd : 1 ≤ d)
    (hm : isMatrix d node.dataset) (hdata : child.dataset = node.dataset)
    (hint : node.isLeaf = false) (hlast : node.children.getLast? = some last)
    (hstored : node.aux = last)
    (hchild : 0 ≤ child.aux.largestValue ∧ child.aux.largestValue.toNat < node.dataset.length)
    (hnode : 0 ≤ last.largestValue ∧ last.largestValue.toNat < node.dataset.length) :
    ∃ next x y r, appendChild D node child = .ok next ∧
      next.children.getLast? = some child.aux ∧
      col node.dataset child.aux.largestValue = .ok x ∧
      col node.dataset last.largestValue = .ok y ∧
      ComparePoints D x y = .ok r ∧
      next.aux = (if r > 0 then child.aux else last) ∧
      (UpdateLargestValue next.aux next = .ok next.aux ↔ (r > 0 ∨ child.aux = last)) := by
  -- the node has a child: its list of children ends in `last`
  have hne : node.children ≠ [] := by
    intro h
    rw [h] at hlast
    cases hlast
  subst hstored
  obtain ⟨x, hx, hxlen⟩ := col_ok_int hm hchild.1 hchild.2
  obtain ⟨y, hy, hylen⟩ := col_ok_int hm hnode.1 hnode.2
  have hcmp := ComparePoints_eq_zero D x y (by omega) (by omega)
  refine ⟨{ node with children := node.children ++ [child.aux] }, x, y, 0, ?_, ?_, hx, hy,
    hcmp, rfl, ?_⟩
  · simp only [appendChild, InsertNode, hdata, hx, hy, hcmp, bind_ok_eq]
    rfl
  · simp
  · have hupd : UpdateLargestValue node.aux
        { node with children := node.children ++ [child.aux] } =
        .ok { largestValue := child.aux.largestValue } :=
      UpdateLargestValue_internal_append node.aux
        { node with children := node.children ++ [child.aux] } hint node.children child.aux rfl
    show UpdateLargestValue node.aux { node with children := node.children ++ [child.aux] } =
      .ok node.aux ↔ _
    rw [hupd]
    constructor
    · intro h
      right
      injection h
    · intro h
      rcases h with h | h
      · exact absurd h (by decide)
      · exact congrArg Except.ok h

theorem InsertNode_append_summary_witness :
    ∃ next x y r, appendChild 4 lineParent lineChild = .ok next ∧
      next.children.getLast? = some lineChild.aux ∧
      col lineParent.dataset lineChild.aux.largestValue = .ok x ∧
      col lineParent.dataset lineParent.aux.largestValue = .ok y ∧
      ComparePoints 4 x y = .ok r ∧
      next.aux = (if r > 0 then lineChild.aux else lineParent.aux) ∧
      (UpdateLargestValue next.aux next = .ok next.aux ↔
        (r > 0 ∨ lineChild.aux = lineParent.aux)) :=
  InsertNode_append_summary 4 1 lineParent lineChild lineParent.aux (le_refl 1)
    lineDataset_isMatrix rfl rfl rfl rfl (by decide) (by decide)

/-! ## Deleting the last point of a leaf -/

/-- C10. Deleting the last point: on a leaf with `n >= 1` points, `DeletePoint` with
`localIndex = n - 1` sets `largestValue` to none (`-1`) when `n = 1` and to the id of the
point at position `n - 2` when `n >= 2`; so on a leaf holding `[p0, p1, p2]`, deleting
index `2` sets it to `p1`. -/
theorem DeletePoint_last (self : RecursiveHilbertValue) (node : Node)
    (hn : 1 ≤ node.NumPoints) :
    (node.NumPoints = 1 ∧
      DeletePoint self node (node.NumPoints - 1) = .ok { largestValue := -1 }) ∨
    (2 ≤ node.NumPoints ∧ ∃ id : Nat, node.points[node.NumPoints - 2]? = some id ∧
      DeletePoint self node (node.NumPoints - 1) = .ok { largestValue := id }) := by
  rcases Nat.lt_or_ge 1 node.NumPoints with h2 | h1
  · right
    obtain ⟨id, hid, -, hget⟩ := rawGet_of_lt node.points (node.NumPoints - 2)
      (by simp only [Node.NumPoints] at h2 ⊢; omega)
    refine ⟨h2, id, hget, ?_⟩
    unfold DeletePoint
    rw [if_neg (by omega), if_pos (by omega),
      show node.NumPoints - 1 - 1 = node.NumPoints - 2 by omega, hid]
    rfl
  · left
    refine ⟨by omega, ?_⟩
    unfold DeletePoint
    rw [if_pos (by omega)]

theorem DeletePoint_last_witness :
    DeletePoint threePointLeaf.aux threePointLeaf 2 = .ok { largestValue := 2 } := by
  rcases DeletePoint_last threePointLeaf.aux threePointLeaf (by decide) with h | h
  · exact absurd h.1 (by decide)
  · obtain ⟨-, id, hid, hdel⟩ := h
    have hid2 : id = 2 := by
      have h2 : threePointLeaf.points[threePointLeaf.NumPoints - 2]? = some 2 := rfl
      rw [h2] at hid
      injection hid with hid
      exact hid.symm
    rw [hid2] at hdel
    exact hdel

/-! ## Deleting a point that is not the last -/

/-- C11. Deleting a non-last point leaves the summary unchanged: on a leaf with `n` points,
`DeletePoint` with a local index `localIndex < n - 1` returns the value it was called on. -/
theorem DeletePoint_not_last (self : RecursiveHilbertValue) (node : Node) (localIndex : Nat)
    (hk : localIndex < node.NumPoints - 1) : DeletePoint self node localIndex = .ok self := by
  unfold DeletePoint
  rw [if_neg (by omega), if_neg (by omega)]

theorem DeletePoint_not_last_witness :
    DeletePoint threePointLeaf.aux threePointLeaf 0 = .ok { largestValue := 1 } ∧
    DeletePoint threePointLeaf.aux threePointLeaf 1 = .ok { largestValue := 1 } :=
  ⟨DeletePoint_not_last threePointLeaf.aux threePointLeaf 0 (by decide),
    DeletePoint_not_last threePointLeaf.aux threePointLeaf 1 (by decide)⟩

/-! ## Removing a child -/

/-- C12. The postcondition of `RemoveNode`: on an internal node with `m >= 1` children and a
child index `k < m`, the value afterwards is none (`-1`) if `m = 1`, the summary of the child
at position `k - 1` if `m >= 2` and `k = m - 1`, and the value before the call if
`k < m - 1`. -/
theorem RemoveNode_post (self : RecursiveHilbertValue) (node : Node) (nodeIndex : Nat)
    (hk : nodeIndex < node.NumChildren) :
    (node.NumChildren = 1 ∧ RemoveNode self node nodeIndex = .ok { largestValue := -1 }) ∨
    (2 ≤ node.NumChildren ∧ nodeIndex = node.NumChildren - 1 ∧
      ∃ c, node.children[nodeIndex - 1]? = some c ∧
        RemoveNode self node nodeIndex = .ok { largestValue := c.largestValue }) ∨
    (nodeIndex < node.NumChildren - 1 ∧ RemoveNode self node nodeIndex = .ok self) := by
  by_cases h1 : node.NumChildren ≤ 1
  · left
    refine ⟨by omega, ?_⟩
    unfold RemoveNode
    rw [if_pos h1]
  · right
    by_cases h2 : nodeIndex + 1 = node.NumChildren
    · left
      obtain ⟨c, hc, -, hget⟩ := rawGet_of_lt node.children (nodeIndex - 1)
        (by simp only [Node.NumChildren] at hk; omega)
      refine ⟨by omega, by omega, c, hget, ?_⟩
      unfold RemoveNode
      rw [if_neg h1, if_pos h2, hc]
      rfl
    · right
      refine ⟨by omega, ?_⟩
      unfold RemoveNode
      rw [if_neg h1, if_neg h2]

theorem RemoveNode_post_witness :
    RemoveNode threeChildNode.aux threeChildNode 2 = .ok { largestValue := 12 } := by
  rcases RemoveNode_post threeChildNode.aux threeChildNode 2 (by decide) with h | h | h
  · exact absurd h.1 (by decide)
  · obtain ⟨-, -, c, hc, hrem⟩ := h
    have h12 : threeChildNode.children[2 - 1]? = some { largestValue := 12 } := rfl
    rw [h12] at hc
    injection hc with hc
    rw [← hc] at hrem
    exact hrem
  · exact absurd h.1 (by decide)

/-! ## Recomputing the summary -/

/-- C13. `UpdateLargestValue` is an unconditional positional recompute: the value afterwards
is, on a leaf, the id of the last point, or none (`-1`) without points, and on an internal
node the summary of the last child, or none without children; it does not depend on the value
before, nor on the magnitude of the ids: child summaries `[5, 12, 9]` give `9`. -/
theorem UpdateLargestValue_positional (self : RecursiveHilbertValue) (node : Node) :
    UpdateLargestValue self node = .ok
      { largestValue :=
          if node.isLeaf then
            (match node.points.getLast? with
              | some p => (p : Int)
              | none => -1)
          else
            (match node.children.getLast? with
              | some c => c.largestValue
              | none => -1) } ∧
    (∀ other : RecursiveHilbertValue,
      UpdateLargestValue other node = UpdateLargestValue self node) ∧
    UpdateLargestValue self threeChildNode = .ok { largestValue := 9 } := by
  refine ⟨?_, fun _ => rfl, rfl⟩
  unfold UpdateLargestValue
  cases hleaf : node.isLeaf
  · simp only [Bool.false_eq_true, if_false, Node.NumChildren]
    rcases List.eq_nil_or_concat node.children with hnil | ⟨cs, c, hcs⟩
    · simp [hnil]
    · have hget : rawGet node.children (node.children.length - 1) = .ok c :=
        rawGet_of_getElem? (by simp [hcs])
      rw [if_pos (by simp [hcs]), hget]
      simp [hcs, bind_ok_eq]
  · simp only [if_true, Node.NumPoints]
    rcases List.eq_nil_or_concat node.points with hnil | ⟨ps, p, hps⟩
    · simp [hnil]
    · have hget : rawGet node.points (node.points.length - 1) = .ok p :=
        rawGet_of_getElem? (by simp [hps])
      rw [if_pos (by simp [hps]), hget]
      simp [hps, bind_ok_eq]

/-! ## The summary of an internal node under `InsertPoint` and `InsertNode` -/

/-- C14. `InsertPoint` on an internal node, for a point of the dataset and a summary that is
none or a point of the dataset: it returns `0`; the value afterwards is the new point id if the
summary was none (`-1`), and otherwise the new point id if the new point compares GREATER than
the point of the summary and the value before if it does not. -/
theorem InsertPoint_internal (D d : Nat) (self : RecursiveHilbertValue) (node : Node)
    (point : Nat) (hint : node.isLeaf = false) (hd : 1 ≤ d) (hm : isMatrix d node.dataset)
    (hp : point < node.dataset.length)
    (hs : self.largestValue = -1 ∨
      (0 ≤ self.largestValue ∧ self.largestValue.toNat < node.dataset.length)) :
    ∃ hv, InsertPoint D self node point = .ok (0, hv) ∧
      (self.largestValue = -1 → hv = { largestValue := point }) ∧
      (0 ≤ self.largestValue → ∃ x y r, col node.dataset point = .ok x ∧
        col node.dataset self.largestValue = .ok y ∧ ComparePoints D x y = .ok r ∧
        hv = if r > 0 then { largestValue := point } else self) := by
  rcases hs with hnone | ⟨h0, hlt⟩
  · refine ⟨{ largestValue := point }, ?_, fun _ => rfl, fun h => absurd h (by omega)⟩
    unfold InsertPoint
    rw [if_neg (by simp [hint]), if_pos (by omega)]
  · obtain ⟨x, hx, hxlen⟩ := col_ok hm hp
    obtain ⟨y, hy, hylen⟩ := col_ok_int hm h0 hlt
    have hcmp := ComparePoints_eq_zero D x y (by omega) (by omega)
    refine ⟨self, ?_, fun h => absurd h (by omega), fun _ => ⟨x, y, 0, hx, hy, hcmp, rfl⟩⟩
    unfold InsertPoint
    rw [if_neg (by simp [hint]), if_neg (by omega)]
    simp only [hx, hy, hcmp, bind_ok_eq]
    rfl

theorem InsertPoint_internal_witness :
    (∃ hv, InsertPoint 4 lineParent.aux lineParent 2 = .ok (0, hv) ∧
      (lineParent.aux.largestValue = -1 → hv = { largestValue := (2 : Nat) }) ∧
      (0 ≤ lineParent.aux.largestValue → ∃ x y r, col lineParent.dataset (2 : Nat) = .ok x ∧
        col lineParent.dataset lineParent.aux.largestValue = .ok y ∧
        ComparePoints 4 x y = .ok r ∧
        hv = if r > 0 then { largestValue := (2 : Nat) } else lineParent.aux)) ∧
    (∃ hv, InsertPoint 4 { largestValue := -1 } lineParent 2 = .ok (0, hv) ∧
      hv = { largestValue := 2 }) :=
  ⟨InsertPoint_internal 4 1 lineParent.aux lineParent 2 rfl (le_refl 1) lineDataset_isMatrix
      (by decide) (Or.inr (by decide)),
    (InsertPoint_internal 4 1 { largestValue := -1 } lineParent 2 rfl (le_refl 1)
      lineDataset_isMatrix (by decide) (Or.inl rfl)).imp fun _ h => ⟨h.1, h.2.1 rfl⟩⟩

/-- C15. `InsertNode` keeps the larger summary: for a parent summary and a child summary that
are points of the dataset, the value afterwards is the child's summary id if the child's
summary point compares GREATER than the parent's summary point, and the parent's value before
otherwise. -/
theorem InsertNode_keeps_larger (D d : Nat) (self : RecursiveHilbertValue) (node : Node)
    (hd : 1 ≤ d) (hm : isMatrix d node.dataset)
    (hchild : 0 ≤ node.aux.largestValue ∧ node.aux.largestValue.toNat < node.dataset.length)
    (hself : 0 ≤ self.largestValue ∧ self.largestValue.toNat < node.dataset.length) :
    ∃ x y r, col node.dataset node.aux.largestValue = .ok x ∧
      col node.dataset self.largestValue = .ok y ∧ ComparePoints D x y = .ok r ∧
      InsertNode D self node =
        .ok (if r > 0 then { largestValue := node.aux.largestValue } else self) := by
  obtain ⟨x, hx, hxlen⟩ := col_ok_int hm hchild.1 hchild.2
  obtain ⟨y, hy, hylen⟩ := col_ok_int hm hself.1 hself.2
  have hcmp := ComparePoints_eq_zero D x y (by omega) (by omega)
  refine ⟨x, y, 0, hx, hy, hcmp, ?_⟩
  simp only [InsertNode, hx, hy, hcmp, bind_ok_eq]
  rfl

theorem InsertNode_keeps_larger_witness :
    ∃ x y r, col lineChild.dataset lineChild.aux.largestValue = .ok x ∧
      col lineChild.dataset lineParent.aux.largestValue = .ok y ∧
      ComparePoints 4 x y = .ok r ∧
      InsertNode 4 lineParent.aux lineChild =
        .ok (if r > 0 then { largestValue := lineChild.aux.largestValue }
          else lineParent.aux) :=
  InsertNode_keeps_larger 4 1 lineParent.aux lineChild (le_refl 1) lineDataset_isMatrix
    (by decide) (by decide)

/-! ## Every activation of the comparator -/

/-- Below the depth limit, the state handed to the recursive call, with the loops that
produce it. -/
theorem body_descend (D d : Nat) (pt1 pt2 : List ℚ) (comp : CompareStruct) (hd : 1 ≤ d)
    (hp1 : pt1.length = d) (hp2 : d ≤ pt2.length) (h : StateOk d comp)
    (hlev : comp.recursionLevel < D) :
    ∃ (center : List ℚ) (last : Int) (perm1 : List Nat) (inv1 : List Bool)
      (lo1 hi1 : List ℚ), mkCenter comp = .ok center ∧
      axisLoop pt1 center (List.range d) (comp.permutation, comp.inversion) =
        .ok (perm1, inv1) ∧
      chooseLoop pt1 center (List.range d) (comp.Lo, comp.Hi) = .ok (lo1, hi1) ∧
      body D pt1 pt2 comp = .ok (.inr
        { Lo := lo1, Hi := hi1, permutation := perm1, inversion := inv1,
          invertResult := if last ≠ 0 then !comp.invertResult else comp.invertResult,
          recursionLevel := comp.recursionLevel + 1 }) := by
  obtain ⟨center, hcenter, hclen⟩ := mkCenter_ok h
  obtain ⟨r, hr, hrlen⟩ := bitsLoop_same pt1 pt2 center comp d hp1 hp2 hclen h.perm h.inv
    h.range (List.range d) (range_lt d) (List.replicate d 0)
  obtain ⟨perm1, inv1, hax, -, -, -⟩ := axisLoop_ok pt1 center d hp1 hclen
    (List.range d) (range_lt d) comp.permutation comp.inversion h.perm h.inv h.range
  obtain ⟨lo1, hi1, hch, -, -⟩ := chooseLoop_ok pt1 center d hp1 hclen
    (List.range d) (range_lt d) comp.Lo comp.Hi h.lo h.hi
  have hbl : (if comp.invertResult then
      notLoop (grayLoop r (List.range' 1 (d - 1))) (List.range d)
      else grayLoop r (List.range' 1 (d - 1))).length = d := by
    split <;> simp [notLoop_length, grayLoop_length, hrlen]
  obtain ⟨last, hlast, -, -⟩ := rawGet_of_lt _ (d - 1) (by rw [hbl]; omega)
  subst hp1
  refine ⟨center, last, perm1, inv1, lo1, hi1, hcenter, hax, hch, ?_⟩
  simp only [body, hcenter, hr, compareLoop_same]
  rw [if_neg (by omega)]
  simp only [hlast, hax, hch]

/-- A property of the recursion state that every descent preserves holds on entry to every
activation, together with the well-formedness of the state. -/
theorem activations_forall (D d : Nat) (pt1 pt2 : List ℚ) (hd : 1 ≤ d)
    (hp1 : pt1.length = d) (hp2 : d ≤ pt2.length) (P : CompareStruct → Prop)
    (hstep : ∀ c c1, StateOk d c → P c → body D pt1 pt2 c = .ok (.inr c1) → P c1) :
    ∀ (n : Nat) (comp : CompareStruct), StateOk d comp → P comp →
      D - comp.recursionLevel = n →
      ∀ c ∈ activations D pt1 pt2 comp, StateOk d c ∧ P c := by
  intro n
  induction n with
  | zero =>
    intro comp hok hP hn c hc
    have hb := body_at_limit D d pt1 pt2 comp hp1 hp2 hok (by omega)
    rw [activations_of_inl hb, List.mem_singleton] at hc
    subst hc
    exact ⟨hok, hP⟩
  | succ n ih =>
    intro comp hok hP hn c hc
    obtain ⟨comp1, hb, hok1, hlev⟩ :=
      body_below_limit D d pt1 pt2 comp hd hp1 hp2 hok (by omega)
    rw [activations_of_inr hb] at hc
    rcases List.mem_cons.mp hc with rfl | hc
    · exact ⟨hok, hP⟩
    · exact ih comp1 hok1 (hstep _ comp1 hok hP hb) (by omega) c hc

/-! ## The bit derivation -/

theorem bind_eq_ok {α β : Type} {x : Except Err α} {f : α → Except Err β} {b : β}
    (h : (x >>= f) = .ok b) : ∃ a, x = .ok a ∧ f a = .ok b := by
  cases x with
  | error e => cases h
  | ok a => exact ⟨a, rfl, h⟩

/-- Whenever the bit loop returns, started on equal vectors, it returns equal vectors. -/
theorem bitsLoop_eq_of_ok (pt1 pt2 center : List ℚ) (comp : CompareStruct) :
    ∀ (idx : List Nat) (b r1 r2 : List Int),
      bitsLoop pt1 pt2 center comp idx (b, b) = .ok (r1, r2) → r1 = r2 := by
  intro idx
  induction idx with
  | nil =>
    intro b r1 r2 h
    simp only [bitsLoop, Except.ok.injEq, Prod.mk.injEq] at h
    rw [← h.1, ← h.2]
  | cons i rest ih =>
    intro b r1 r2 h
    simp only [bitsLoop] at h
    obtain ⟨j, -, h⟩ := bind_eq_ok h
    obtain ⟨x1, -, h⟩ := bind_eq_ok h
    obtain ⟨c, -, h⟩ := bind_eq_ok h
    obtain ⟨f, -, h⟩ := bind_eq_ok h
    obtain ⟨x2, -, h⟩ := bind_eq_ok h
    simp only [halfSpaceBit_eq_not] at h
    exact ih _ r1 r2 h

/-- C16. The bit derivation is flag-only: the half-space bit is the negated inversion flag
whatever the coordinate and the center, so two coordinates give the same bit; the bit loop
returns equal vectors for the two points whenever it returns; and for points of equal
dimension `d >= 1` it returns equal vectors at every activation of the comparator. -/
theorem bits_flag_only (D : Nat) (p q : List ℚ) (hd : 1 ≤ p.length)
    (hlen : q.length = p.length) :
    (∀ (x c : ℚ) (inv : Bool), halfSpaceBit x c inv = !inv) ∧
    (∀ (x1 x2 c : ℚ) (inv : Bool), halfSpaceBit x1 c inv = halfSpaceBit x2 c inv) ∧
    (∀ (center : List ℚ) (comp : CompareStruct) (idx : List Nat) (b r1 r2 : List Int),
      bitsLoop p q center comp idx (b, b) = .ok (r1, r2) → r1 = r2) ∧
    ∀ comp ∈ activations D p q (CompareStruct.init p.length),
      ∃ center b, mkCenter comp = .ok center ∧
        bitsLoop p q center comp (List.range p.length)
          (List.replicate p.length 0, List.replicate p.length 0) = .ok (b, b) := by
  refine ⟨halfSpaceBit_eq_not, fun x1 x2 c inv => ?_,
    fun center comp => bitsLoop_eq_of_ok p q center comp, ?_⟩
  · rw [halfSpaceBit_eq_not, halfSpaceBit_eq_not]
  · intro comp hcomp
    obtain ⟨hok, -⟩ := activations_forall D p.length p q hd rfl (by omega) (fun _ => True)
      (fun _ _ _ _ _ => trivial) D (CompareStruct.init p.length) (StateOk_init _) trivial rfl
      comp hcomp
    obtain ⟨center, hcenter, hclen⟩ := mkCenter_ok hok
    obtain ⟨b, hb, -⟩ := bitsLoop_same p q center comp p.length rfl (by omega) hclen hok.perm
      hok.inv hok.range (List.range p.length) (range_lt _) (List.replicate p.length 0)
    exact ⟨center, b, hcenter, hb⟩

theorem bits_flag_only_witness :
    (∀ (x c : ℚ) (inv : Bool), halfSpaceBit x c inv = !inv) ∧
    (∀ (x1 x2 c : ℚ) (inv : Bool), halfSpaceBit x1 c inv = halfSpaceBit x2 c inv) ∧
    (∀ (center : List ℚ) (comp : CompareStruct) (idx : List Nat) (b r1 r2 : List Int),
      bitsLoop cornerSW cornerNE center comp idx (b, b) = .ok (r1, r2) → r1 = r2) ∧
    ∀ comp ∈ activations 4 cornerSW cornerNE (CompareStruct.init cornerSW.length),
      ∃ center b, mkCenter comp = .ok center ∧
        bitsLoop cornerSW cornerNE center comp (List.range cornerSW.length)
          (List.replicate cornerSW.length 0, List.replicate cornerSW.length 0) = .ok (b, b) :=
  bits_flag_only 4 cornerSW cornerNE (by decide) (by decide)

/-! ## The comparator is constant -/

/-- C19. The comparator is constant: for points of equal dimension `d >= 1` and every
recursion depth, `ComparePoints` returns EQUAL (`0`), and so neither LESS nor GREATER. -/
theorem ComparePoints_constant (D : Nat) (pt1 pt2 : List ℚ) (hd : 1 ≤ pt1.length)
    (hlen : pt2.length = pt1.length) :
    ComparePoints D pt1 pt2 = .ok 0 ∧ ComparePoints D pt1 pt2 ≠ .ok (-1) ∧
      ComparePoints D pt1 pt2 ≠ .ok 1 := by
  have h := ComparePoints_eq_zero D pt1 pt2 hd (by omega)
  refine ⟨h, ?_, ?_⟩ <;> rw [h] <;> intro hne <;> cases hne

theorem ComparePoints_constant_witness :
    ComparePoints 4 cornerSW cornerNE = .ok 0 ∧ ComparePoints 4 cornerSW cornerNE ≠ .ok (-1) ∧
      ComparePoints 4 cornerSW cornerNE ≠ .ok 1 :=
  ComparePoints_constant 4 cornerSW cornerNE (by decide) (by decide)

/-! ## The permutation of the axes -/

theorem rawGet_eq_ok {α : Type} {v : List α} {j : Nat} {x : α} (h : rawGet v j = .ok x) :
    v[j]? = some x := by
  unfold rawGet at h
  split at h
  · rename_i y hy
    injection h with h
    rw [hy, h]
  · cases h

theorem rawSet_eq_ok {α : Type} {v w : List α} {j : Nat} {x : α}
    (h : rawSet v j x = .ok w) : w = v.set j x := by
  unfold rawSet at h
  split at h
  · injection h with h
    exact h.symm
  · cases h

theorem set_perm_cons {α : Type} (a b : α) :
    ∀ (xs : List α) (k : Nat), xs[k]? = some b → (b :: xs.set k a).Perm (a :: xs) := by
  intro xs
  induction xs with
  | nil => intro k h; simp at h
  | cons y ys ih =>
    intro k h
    cases k with
    | zero =>
      simp only [List.getElem?_cons_zero, Option.some.injEq] at h
      subst h
      simp only [List.set_cons_zero]
      exact List.Perm.swap _ _ _
    | succ k =>
      simp only [List.getElem?_cons_succ] at h
      simp only [List.set_cons_succ]
      exact ((List.Perm.swap y b _).trans ((ih k h).cons y)).trans (List.Perm.swap a y ys)

/-- Exchanging the entries at the positions `0` and `i` of a list permutes it. -/
theorem swap_perm {α : Type} (l : List α) (i : Nat) (a b : α) (h0 : l[0]? = some a)
    (hi : l[i]? = some b) : ((l.set 0 b).set i a).Perm l := by
  cases l with
  | nil => simp at h0
  | cons x xs =>
    simp only [List.getElem?_cons_zero, Option.some.injEq] at h0
    subst h0
    cases i with
    | zero =>
      simp only [List.getElem?_cons_zero, Option.some.injEq] at hi
      subst hi
      simp
    | succ k =>
      simp only [List.getElem?_cons_succ] at hi
      simp only [List.set_cons_zero, List.set_cons_succ]
      exact set_perm_cons x b xs k hi

/-- Whenever the axis loop returns, the permutation it returns is a rearrangement of the one
it was given. -/
theorem axisLoop_perm (pt1 center : List ℚ) :
    ∀ (idx : List Nat) (perm : List Nat) (inv : List Bool) (perm1 : List Nat)
      (inv1 : List Bool),
      axisLoop pt1 center idx (perm, inv) = .ok (perm1, inv1) → perm1.Perm perm := by
  intro idx
  induction idx with
  | nil =>
    intro perm inv perm1 inv1 h
    simp only [axisLoop, Except.ok.injEq, Prod.mk.injEq] at h
    rw [h.1]
  | cons i rest ih =>
    intro perm inv perm1 inv1 h
    simp only [axisLoop] at h
    obtain ⟨j, -, h⟩ := bind_eq_ok h
    obtain ⟨j0, -, h⟩ := bind_eq_ok h
    obtain ⟨x, -, h⟩ := bind_eq_ok h
    obtain ⟨c, -, h⟩ := bind_eq_ok h
    obtain ⟨f, -, h⟩ := bind_eq_ok h
    split at h
    · obtain ⟨f0, -, h⟩ := bind_eq_ok h
      obtain ⟨inv2, -, h⟩ := bind_eq_ok h
      exact ih perm inv2 perm1 inv1 h
    · obtain ⟨tmp, htmp, h⟩ := bind_eq_ok h
      obtain ⟨pi, hpi, h⟩ := bind_eq_ok h
      obtain ⟨perm2, hp2, h⟩ := bind_eq_ok h
      obtain ⟨perm3, hp3, h⟩ := bind_eq_ok h
      have h3 := ih perm3 inv perm1 inv1 h
      rw [rawSet_eq_ok hp3, rawSet_eq_ok hp2] at h3
      exact h3.trans (swap_perm perm i tmp pi (rawGet_eq_ok htmp) (rawGet_eq_ok hpi))

/-- C20. The permutation invariant: the axis-update loop returns a permutation of
`0 .. d-1` whenever it is given one; hence, for points of equal dimension `d >= 1`, on entry to
every activation of the comparator the state's permutation is a permutation of `0 .. d-1`,
and each of its entries is an index in range for both points, for the center and for the
inversion flags. -/
theorem permutation_invariant (D : Nat) (p q : List ℚ) (hd : 1 ≤ p.length)
    (hlen : q.length = p.length) :
    (∀ (center : List ℚ) (idx perm : List Nat) (inv : List Bool) (perm1 : List Nat)
      (inv1 : List Bool), perm.Perm (List.range p.length) →
      axisLoop p center idx (perm, inv) = .ok (perm1, inv1) →
      perm1.Perm (List.range p.length)) ∧
    ∀ comp ∈ activations D p q (CompareStruct.init p.length),
      comp.permutation.Perm (List.range p.length) ∧
      ∃ center, mkCenter comp = .ok center ∧
        ∀ j ∈ comp.permutation,
          j < p.length ∧ j < q.length ∧ j < center.length ∧ j < comp.inversion.length := by
  refine ⟨fun center idx perm inv perm1 inv1 hperm h =>
    (axisLoop_perm p center idx perm inv perm1 inv1 h).trans hperm, ?_⟩
  intro comp hcomp
  obtain ⟨hok, hperm⟩ := activations_forall D p.length p q hd rfl (by omega)
    (fun c => c.permutation.Perm (List.range p.length))
    (fun c c1 hc hP hb => by
      by_cases hlev : c.recursionLevel < D
      · obtain ⟨center, last, perm1, inv1, lo1, hi1, -, hax, -, hbody⟩ :=
          body_descend D p.length p q c hd rfl (by omega) hc hlev
        rw [hbody] at hb
        injection hb with hb
        injection hb with hb
        subst hb
        exact (axisLoop_perm p center _ _ _ perm1 inv1 hax).trans hP
      · rw [body_at_limit D p.length p q c rfl (by omega) hc (by omega)] at hb
        injection hb with hb
        cases hb)
    D (CompareStruct.init p.length) (StateOk_init _) (List.Perm.refl _) rfl comp hcomp
  obtain ⟨center, hcenter, hclen⟩ := mkCenter_ok hok
  refine ⟨hperm, center, hcenter, fun j hj => ?_⟩
  have hjd := hok.range j hj
  have hinv := hok.inv
  exact ⟨hjd, by omega, by omega, by omega⟩

theorem permutation_invariant_witness :
    (∀ (center : List ℚ) (idx perm : List Nat) (inv : List Bool) (perm1 : List Nat)
      (inv1 : List Bool), perm.Perm (List.range cornerSW.length) →
      axisLoop cornerSW center idx (perm, inv) = .ok (perm1, inv1) →
      perm1.Perm (List.range cornerSW.length)) ∧
    ∀ comp ∈ activations 4 cornerSW cornerNE (CompareStruct.init cornerSW.length),
      comp.permutation.Perm (List.range cornerSW.length) ∧
      ∃ center, mkCenter comp = .ok center ∧
        ∀ j ∈ comp.permutation,
          j < cornerSW.length ∧ j < cornerNE.length ∧ j < center.length ∧
            j < comp.inversion.length :=
  permutation_invariant 4 cornerSW cornerNE (by decide) (by decide)

/-! ## The Gray step -/

theorem getD_congr {l1 l2 : List Int} {j : Nat} (h : l1[j]? = l2[j]?) :
    l1.getD j 0 = l2.getD j 0 := by
  rw [List.getD_eq_getElem?_getD, List.getD_eq_getElem?_getD, h]

/-- The Gray loop over the indices `s, s+1, .., s+k-1` with `s >= 1`: entries outside the
indices are kept, and the entry at each index is the exclusive or of the entry before the
loop and the entry to its left after the loop. -/
theorem grayLoop_range (k : Nat) :
    ∀ (s : Nat) (b : List Int), 1 ≤ s →
      (∀ j, j < s → (grayLoop b (List.range' s k))[j]? = b[j]?) ∧
      (∀ j, s + k ≤ j → (grayLoop b (List.range' s k))[j]? = b[j]?) ∧
      (∀ j, s ≤ j → j < s + k → j < b.length →
        (grayLoop b (List.range' s k)).getD j 0 =
          intXor (b.getD j 0) ((grayLoop b (List.range' s k)).getD (j - 1) 0)) := by
  induction k with
  | zero =>
    intro s b _
    refine ⟨fun j _ => ?_, fun j _ => ?_, fun j h1 h2 _ => absurd h2 (by omega)⟩ <;>
      rw [List.range'_zero] <;> rfl
  | succ k ih =>
    intro s b hs
    rw [List.range'_succ]
    simp only [grayLoop]
    obtain ⟨ha, hb, hc⟩ := ih (s + 1)
      (b.set s (intXor (b.getD s 0) (b.getD (s - 1) 0))) (by omega)
    refine ⟨fun j hj => ?_, fun j hj => ?_, fun j hj1 hj2 hj3 => ?_⟩
    · rw [ha j (by omega), List.getElem?_set_ne (by omega)]
    · rw [hb j (by omega), List.getElem?_set_ne (by omega)]
    · rcases Nat.eq_or_lt_of_le hj1 with rfl | hlt
      · have e1 : (grayLoop (b.set s (intXor (b.getD s 0) (b.getD (s - 1) 0)))
            (List.range' (s + 1) k)).getD s 0 = intXor (b.getD s 0) (b.getD (s - 1) 0) := by
          rw [List.getD_eq_getElem?_getD, ha s (by omega), List.getElem?_set_self hj3]
          rfl
        have e2 : (grayLoop (b.set s (intXor (b.getD s 0) (b.getD (s - 1) 0)))
            (List.range' (s + 1) k)).getD (s - 1) 0 = b.getD (s - 1) 0 :=
          getD_congr (by rw [ha (s - 1) (by omega), List.getElem?_set_ne (by omega)])
        rw [e1, e2]
      · have e3 : (b.set s (intXor (b.getD s 0) (b.getD (s - 1) 0))).getD j 0 = b.getD j 0 :=
          getD_congr (List.getElem?_set_ne (by omega))
        rw [hc j (by omega) (by omega) (by simpa using hj3), e3]

/-- C18, as stated, fails: for three-dimensional points the bit loop gives `[1, 1, 1]` at the
fresh state; on this vector the Gray loop leaves `1` at index `2`, while the exclusive or of
the entries `2` and `1` before the loop is `0`. -/
theorem grayLoop_not_standard :
    mkCenter (CompareStruct.init 3) = .ok [1 / 2, 1 / 2, 1 / 2] ∧
    bitsLoop [0, 0, 0] [1, 1, 1] [1 / 2, 1 / 2, 1 / 2] (CompareStruct.init 3) (List.range 3)
      (List.replicate 3 0, List.replicate 3 0) = .ok ([1, 1, 1], [1, 1, 1]) ∧
    grayLoop [1, 1, 1] (List.range' 1 (3 - 1)) = [1, 0, 1] ∧
    (grayLoop [1, 1, 1] (List.range' 1 (3 - 1))).getD 2 0 ≠
      intXor (([1, 1, 1] : List Int).getD 2 0) (([1, 1, 1] : List Int).getD 1 0) := by
  refine ⟨?_, ?_, by decide, by decide⟩
  · simp [mkCenter, CompareStruct.init]
  · simp [bitsLoop, CompareStruct.init, rawGet, elemAt, bind_ok_eq, halfSpaceBit_eq_not,
      boolToInt, List.range, List.range.loop]

/-- C18, amended. For every bit vector `b` of length `d`, the vector `g` the Gray loop
produces has length `d`, `g[0] = b[0]`, and `g[i] = b[i] XOR g[i-1]` for `1 <= i < d`: the
left neighbour is read after the loop has updated it. -/
theorem grayLoop_in_place (b : List Int) :
    (grayLoop b (List.range' 1 (b.length - 1))).length = b.length ∧
    (grayLoop b (List.range' 1 (b.length - 1))).getD 0 0 = b.getD 0 0 ∧
    ∀ i : Nat, 1 ≤ i → i < b.length →
      (grayLoop b (List.range' 1 (b.length - 1))).getD i 0 =
        intXor (b.getD i 0) ((grayLoop b (List.range' 1 (b.length - 1))).getD (i - 1) 0) := by
  obtain ⟨ha, -, hc⟩ := grayLoop_range (b.length - 1) 1 b (le_refl 1)
  refine ⟨grayLoop_length _ _, ?_, fun i h1 hi => hc i h1 (by omega) hi⟩
  rw [List.getD_eq_getElem?_getD, List.getD_eq_getElem?_getD, ha 0 (by omega)]

theorem grayLoop_in_place_witness :
    (grayLoop [1, 1, 1] (List.range' 1 (([1, 1, 1] : List Int).length - 1))).length =
      ([1, 1, 1] : List Int).length ∧
    (grayLoop [1, 1, 1] (List.range' 1 (([1, 1, 1] : List Int).length - 1))).getD 0 0 =
      ([1, 1, 1] : List Int).getD 0 0 ∧
    (grayLoop [1, 1, 1] (List.range' 1 (([1, 1, 1] : List Int).length - 1))).getD 2 0 =
      intXor (([1, 1, 1] : List Int).getD 2 0)
        ((grayLoop [1, 1, 1] (List.range' 1 (([1, 1, 1] : List Int).length - 1))).getD
          (2 - 1) 0) :=
  have h := grayLoop_in_place [1, 1, 1]
  ⟨h.1, h.2.1, h.2.2 2 (by decide) (by decide)⟩

/-! ## The sub-hypercube -/

theorem forall₂_set_left {α β : Type} {R : α → β → Prop} {l1 : List α} {l2 : List β}
    (h : List.Forall₂ R l1 l2) :
    ∀ (i : Nat) (c : α) (x : β), l2[i]? = some x → R c x → List.Forall₂ R (l1.set i c) l2 := by
  induction h with
  | nil => intro i c x hx; simp at hx
  | cons hab _ ih =>
    intro i c x hx hR
    cases i with
    | zero =>
      simp only [List.getElem?_cons_zero, Option.some.injEq] at hx
      subst hx
      exact List.Forall₂.cons hR (by assumption)
    | succ i =>
      simp only [List.getElem?_cons_succ] at hx
      exact List.Forall₂.cons hab (ih i c x hx hR)

theorem forall₂_set_right {α β : Type} {R : α → β → Prop} {l1 : List α} {l2 : List β}
    (h : List.Forall₂ R l1 l2) :
    ∀ (i : Nat) (c : β) (x : α), l1[i]? = some x → R x c → List.Forall₂ R l1 (l2.set i c) := by
  induction h with
  | nil => intro i c x hx; simp at hx
  | cons hab _ ih =>
    intro i c x hx hR
    cases i with
    | zero =>
      simp only [List.getElem?_cons_zero, Option.some.injEq] at hx
      subst hx
      exact List.Forall₂.cons hR (by assumption)
    | succ i =>
      simp only [List.getElem?_cons_succ] at hx
      exact List.Forall₂.cons hab (ih i c x hx hR)

theorem elemAt_eq_ok {α : Type} {v : List α} {j : Nat} {x : α} (h : elemAt v j = .ok x) :
    v[j]? = some x := by
  unfold elemAt at h
  split at h
  · rename_i y hy
    injection h with h
    rw [hy, h]
  · cases h

theorem elemSet_eq_ok {α : Type} {v w : List α} {j : Nat} {x : α}
    (h : elemSet v j x = .ok w) : w = v.set j x := by
  unfold elemSet at h
  split at h
  · injection h with h
    exact h.symm
  · cases h

/-- Whenever the loop that shrinks the box returns, the box it returns holds the first point
if the box it was given does. -/
theorem chooseLoop_inBox (pt1 center : List ℚ) :
    ∀ (idx : List Nat) (lo hi lo1 hi1 : List ℚ),
      chooseLoop pt1 center idx (lo, hi) = .ok (lo1, hi1) → inBox pt1 lo hi →
      inBox pt1 lo1 hi1 := by
  intro idx
  induction idx with
  | nil =>
    intro lo hi lo1 hi1 h hbox
    simp only [chooseLoop, Except.ok.injEq, Prod.mk.injEq] at h
    rw [← h.1, ← h.2]
    exact hbox
  | cons i rest ih =>
    intro lo hi lo1 hi1 h hbox
    simp only [chooseLoop] at h
    obtain ⟨x, hx, h⟩ := bind_eq_ok h
    obtain ⟨c, hc, h⟩ := bind_eq_ok h
    split at h
    · rename_i hgt
      obtain ⟨c1, hc1, h⟩ := bind_eq_ok h
      obtain ⟨lo2, hlo2, h⟩ := bind_eq_ok h
      have hcc : c = c1 := by
        rw [hc] at hc1
        injection hc1
      rw [elemSet_eq_ok hlo2, ← hcc] at h
      exact ih _ _ _ _ h
        ⟨forall₂_set_left hbox.1 i c x (elemAt_eq_ok hx) (le_of_lt hgt), hbox.2⟩
    · rename_i hle
      obtain ⟨c1, hc1, h⟩ := bind_eq_ok h
      obtain ⟨hi2, hhi2, h⟩ := bind_eq_ok h
      have hcc : c = c1 := by
        rw [hc] at hc1
        injection hc1
      rw [elemSet_eq_ok hhi2, ← hcc] at h
      exact ih _ _ _ _ h
        ⟨hbox.1, forall₂_set_right hbox.2 i c x (elemAt_eq_ok hx) (not_lt.mp hle)⟩

/-- The first point stays in the box: for points of equal dimension `d >= 1`, if the first
point lies in the box of the fresh state, it lies in the box of the state on entry to every
activation of the comparator. -/
theorem first_point_inBox (D : Nat) (p q : List ℚ) (hd : 1 ≤ p.length)
    (hlen : q.length = p.length)
    (hunit : inBox p (CompareStruct.init p.length).Lo (CompareStruct.init p.length).Hi) :
    ∀ comp ∈ activations D p q (CompareStruct.init p.length), inBox p comp.Lo comp.Hi := by
  intro comp hcomp
  exact (activations_forall D p.length p q hd rfl (by omega)
    (fun c => inBox p c.Lo c.Hi)
    (fun c c1 hc hP hb => by
      by_cases hlev : c.recursionLevel < D
      · obtain ⟨center, last, perm1, inv1, lo1, hi1, -, -, hch, hbody⟩ :=
          body_descend D p.length p q c hd rfl (by omega) hc hlev
        rw [hbody] at hb
        injection hb with hb
        injection hb with hb
        subst hb
        exact chooseLoop_inBox p center _ _ _ lo1 hi1 hch hP
      · rw [body_at_limit D p.length p q c rfl (by omega) hc (by omega)] at hb
        injection hb with hb
        cases hb)
    D (CompareStruct.init p.length) (StateOk_init _) hunit rfl comp hcomp).2

/-- C17. For the points `(0.1, 0.1)` and `(0.9, 0.9)` of the unit square and recursion depth
`1`, the comparator is entered a second time with the box `[0, 1/2] x [0, 1/2]`: it holds the
first point and does not hold the second. -/
theorem subhypercube_excludes_second :
    inBox cornerSW (CompareStruct.init 2).Lo (CompareStruct.init 2).Hi ∧
    inBox cornerNE (CompareStruct.init 2).Lo (CompareStruct.init 2).Hi ∧
    activations 1 cornerSW cornerNE (CompareStruct.init cornerSW.length) =
      [CompareStruct.init 2, quarterState] ∧
    inBox cornerSW quarterState.Lo quarterState.Hi ∧
    ¬ inBox cornerNE quarterState.Lo quarterState.Hi := by
  have hx : Int.xor 1 1 = 0 := by decide
  have hb0 : body 1 cornerSW cornerNE (CompareStruct.init 2) = .ok (.inr quarterState) := by
    simp [body, mkCenter, CompareStruct.init, bitsLoop, cornerSW, cornerNE, rawGet, elemAt,
      bind_ok_eq, halfSpaceBit_eq_not, grayLoop, compareLoop, boolToInt, intXor, axisLoop,
      chooseLoop, rawSet, elemSet, List.range, List.range.loop, List.range', hx, quarterState]
    norm_num
  have hb1 : body 1 cornerSW cornerNE quarterState = .ok (.inl 0) :=
    body_at_limit 1 2 cornerSW cornerNE quarterState rfl (by decide)
      ⟨rfl, rfl, rfl, rfl, by decide⟩ (by decide)
  refine ⟨?_, ?_, ?_, ?_, ?_⟩
  · simp [inBox, cornerSW, CompareStruct.init]
    norm_num
  · simp [inBox, cornerNE, CompareStruct.init]
    norm_num
  · show activations 1 cornerSW cornerNE (CompareStruct.init 2) = _
    rw [activations_of_inr hb0, activations_of_inl hb1]
  · simp [inBox, cornerSW, quarterState]
    norm_num
  · simp [inBox, cornerNE, quarterState]
    norm_num

end RecursiveHilbertValue
